import Mathlib

/-!
Verification of the Hospital Patient Management & Scheduling System.

The repository ships two source files, `main.py` (the CLI driving all
operations) and `src/storage.py` (persistence).  The hand-built data
structures (`HashTable`, `BST`, `PriorityQueue`) and the entity classes
(`Patient`, `Appointment`) are imported by those files but their modules are
not part of the source tree; they are modelled here from the specification
(§3, §4 of spec.md).  Everything taken from `main.py` or `src/storage.py`
is embedded directly from the source.
-/

set_option maxHeartbeats 1000000

namespace Hospital

/-- The appointment-code alphabet of `main.py`: digits `0-9` then `A-Z`. -/
def APPT_CODE_CHARS : List Char :=
  ['0', '1', '2', '3', '4', '5', '6', '7', '8', '9',
   'A', 'B', 'C', 'D', 'E', 'F', 'G', 'H', 'I', 'J', 'K', 'L', 'M',
   'N', 'O', 'P', 'Q', 'R', 'S', 'T', 'U', 'V', 'W', 'X', 'Y', 'Z']

/-- `APPT_CODE_CHARS[d]` with a default, for a base-36 digit `d`. -/
def codeChar (d : Nat) : Char := APPT_CODE_CHARS.getD d '0'

/-- Fuel-driven helper for the base-36 digit loop (the fuel bounds the
number of iterations so the recursion is structural). -/
def base36LEAux : Nat → Nat → List Nat
  | 0, _ => []
  | f + 1, n => if n = 0 then [] else (n % 36) :: base36LEAux f (n / 36)

/-- Little-endian base-36 digits of `n`, mirroring the `divmod` loop of
`generate_appt_code` in `main.py` (the loop runs while `n > 0`, so `0`
produces no digits). -/
def base36LE (n : Nat) : List Nat := base36LEAux n n

theorem base36LEAux_zero (f : Nat) : base36LEAux f 0 = [] := by
  cases f with
  | zero => rfl
  | succ f => simp [base36LEAux]

theorem base36LEAux_congr (f1 : Nat) : ∀ f2 n, n ≤ f1 → n ≤ f2 →
    base36LEAux f1 n = base36LEAux f2 n := by
  induction f1 with
  | zero =>
    intro f2 n h1 _
    have hn : n = 0 := Nat.le_zero.mp h1
    subst hn
    rw [base36LEAux_zero, base36LEAux_zero]
  | succ f1 ih =>
    intro f2 n h1 h2
    by_cases hn : n = 0
    · subst hn
      rw [base36LEAux_zero, base36LEAux_zero]
    · have hpos : 1 ≤ n := Nat.pos_of_ne_zero hn
      obtain ⟨f2p, rfl⟩ : ∃ f2p, f2 = f2p + 1 :=
        ⟨f2 - 1, by omega⟩
      simp only [base36LEAux, if_neg hn]
      have hdiv : n / 36 < n := Nat.div_lt_self hpos (by decide)
      rw [ih f2p (n / 36) (by omega) (by omega)]

/-- The defining equation of the digit loop. -/
theorem base36LE_eq (n : Nat) :
    base36LE n = if n = 0 then [] else (n % 36) :: base36LE (n / 36) := by
  by_cases hn : n = 0
  · subst hn
    rw [if_pos rfl]
    rfl
  · rw [if_neg hn]
    show base36LEAux n n = _
    have hpos : 1 ≤ n := Nat.pos_of_ne_zero hn
    obtain ⟨np, rfl⟩ : ∃ np, n = np + 1 := ⟨n - 1, by omega⟩
    simp only [base36LEAux, if_neg hn]
    have hdiv : (np + 1) / 36 < np + 1 := Nat.div_lt_self hpos (by decide)
    rw [base36LEAux_congr np ((np + 1) / 36) ((np + 1) / 36) (by omega)
      (by omega)]
    rfl

/-- Python's `code.rjust(5, "0")[-5:]` on a list of characters: left-pad to
length 5 with `'0'`, then keep only the last 5 characters. -/
def rjustTake5 (s : List Char) : List Char :=
  let padded := List.replicate (5 - s.length) '0' ++ s
  padded.drop (padded.length - 5)

/-- `generate_appt_code` from `main.py`: clamp negative counters to `0`,
render the counter in base 36 (most significant digit first, `"0"` for the
zero counter), left-pad with `'0'` to width 5 and keep the last 5
characters. -/
def generate_appt_code (counter : Int) : String :=
  let c : Nat := counter.toNat
  let code : List Char :=
    if c = 0 then ['0'] else ((base36LE c).map codeChar).reverse
  String.mk (rjustTake5 code)

/-- The first `k` little-endian base-36 digits of `n`, including leading
zeros (spec-side description of a fixed-width base-36 rendering). -/
def leFixed : Nat → Nat → List Nat
  | 0, _ => []
  | k + 1, n => n % 36 :: leFixed k (n / 36)

/-- The fixed-width 5-character base-36 representation of `n`
(most significant digit first, left-padded with `'0'`), as the spec
describes the appointment code. -/
def base36fixed5 (n : Nat) : String :=
  String.mk ([n / 36 ^ 4 % 36, n / 36 ^ 3 % 36, n / 36 ^ 2 % 36,
              n / 36 % 36, n % 36].map codeChar)

/-- Pad a digit list on the right with zeros to length `k`, then truncate to
length `k`. -/
def padTake (k : Nat) (l : List Nat) : List Nat :=
  l.take k ++ List.replicate (k - l.length) 0

theorem padTake_nil (k : Nat) : padTake k [] = List.replicate k 0 := by
  simp [padTake]

theorem padTake_cons (k : Nat) (x : Nat) (xs : List Nat) :
    padTake (k + 1) (x :: xs) = x :: padTake k xs := by
  simp [padTake, List.replicate]

theorem leFixed_zero (k : Nat) : leFixed k 0 = List.replicate k 0 := by
  induction k with
  | zero => rfl
  | succ k ih => simp [leFixed, ih, List.replicate]

theorem padTake_base36LE (k n : Nat) : padTake k (base36LE n) = leFixed k n := by
  induction k generalizing n with
  | zero => simp [padTake, leFixed]
  | succ k ih =>
    by_cases h : n = 0
    · subst h
      rw [base36LE_eq]
      simp [padTake_nil, leFixed_zero, leFixed, List.replicate]
    · rw [base36LE_eq]
      simp only [h, if_false, padTake_cons, leFixed]
      rw [ih]

theorem leFixed_mod_pow (k n : Nat) : leFixed k (n % 36 ^ k) = leFixed k n := by
  induction k generalizing n with
  | zero => rfl
  | succ k ih =>
    have h36 : (36 : Nat) ^ (k + 1) = 36 * 36 ^ k := by ring
    simp only [leFixed]
    congr 1
    · rw [h36, Nat.mod_mod_of_dvd _ ⟨36 ^ k, by ring⟩]
    · rw [h36, Nat.mod_mul_right_div_self, ih]

theorem rjustTake5_reverse_map (l : List Nat) :
    rjustTake5 ((l.map codeChar).reverse) = ((padTake 5 l).map codeChar).reverse := by
  by_cases h : l.length ≤ 5
  · have h5 : 5 - l.length + l.length = 5 := by omega
    simp only [rjustTake5, List.length_reverse, List.length_map, List.length_append,
      List.length_replicate, h5, Nat.sub_self, List.drop_zero, padTake,
      List.take_of_length_le h, List.map_append, List.map_replicate,
      List.reverse_append, List.reverse_replicate]
    simp [codeChar, APPT_CODE_CHARS]
  · have h0 : 5 - l.length = 0 := by omega
    simp only [rjustTake5, List.length_reverse, List.length_map, h0,
      List.replicate_zero, List.nil_append, padTake, List.append_nil]
    rw [List.map_take, List.reverse_take, List.length_map]

theorem base36LE_digits_lt (n : Nat) : ∀ d ∈ base36LE n, d < 36 := by
  induction n using Nat.strong_induction_on with
  | _ n ih =>
    intro d hd
    rw [base36LE_eq] at hd
    by_cases h : n = 0
    · simp [h] at hd
    · simp only [h, if_false, List.mem_cons] at hd
      rcases hd with h1 | h2
      · omega
      · exact ih (n / 36) (Nat.div_lt_self (Nat.pos_of_ne_zero h) (by decide)) d h2

theorem leFixed_five (m : Nat) :
    ((leFixed 5 m).map codeChar).reverse =
      [m / 36 ^ 4 % 36, m / 36 ^ 3 % 36, m / 36 ^ 2 % 36, m / 36 % 36, m % 36].map codeChar := by
  simp [leFixed, Nat.div_div_eq_div_mul]

/-- Core computation: `generate_appt_code` on a non-negative counter produces
the fixed-width representation of the counter's lowest five base-36
digits. -/
theorem generate_appt_code_eq (n : Nat) :
    generate_appt_code (n : Int) = base36fixed5 (n % 36 ^ 5) := by
  unfold generate_appt_code base36fixed5
  simp only [Int.toNat_ofNat]
  by_cases h : n = 0
  · subst h; rfl
  · simp only [h, if_false]
    rw [rjustTake5_reverse_map, padTake_base36LE, ← leFixed_mod_pow, leFixed_five]

theorem rjustTake5_length (s : List Char) : (rjustTake5 s).length = 5 := by
  simp only [rjustTake5, List.length_drop, List.length_append, List.length_replicate]
  omega

theorem rjustTake5_mem (s : List Char) (ch : Char) (h : ch ∈ rjustTake5 s) :
    ch = '0' ∨ ch ∈ s := by
  have hp := List.mem_of_mem_drop h
  rcases List.mem_append.mp hp with h1 | h2
  · exact Or.inl (List.eq_of_mem_replicate h1)
  · exact Or.inr h2

theorem codeChar_mem (d : Nat) (hd : d < 36) : codeChar d ∈ APPT_CODE_CHARS := by
  interval_cases d <;> decide

theorem generate_appt_code_neg (c : Int) (h : c.toNat = 0) :
    generate_appt_code c = "00000" := by
  unfold generate_appt_code
  simp only [h, if_pos rfl]
  rfl


/-- C4: for every non-negative counter, `generate_appt_code` returns the
fixed-width 5-character base-36 representation (digits `0-9` then `A-Z`,
left-padded with `'0'`) of the counter's lowest five base-36 digits, and the
function is periodic in the counter with period `36 ^ 5`. -/
theorem generate_appt_code_base36_fixed_width (n : Nat) :
    generate_appt_code (n : Int) = base36fixed5 (n % 36 ^ 5) ∧
    generate_appt_code ((n : Int) + 36 ^ 5) = generate_appt_code (n : Int) := by
  refine ⟨generate_appt_code_eq n, ?_⟩
  have h : ((n : Int) + 36 ^ 5) = ((n + 36 ^ 5 : Nat) : Int) := by push_cast; ring
  rw [h, generate_appt_code_eq, generate_appt_code_eq, Nat.add_mod_right]

/-- C10: a negative counter is treated exactly like counter `0`, producing
`"00000"`; and for every integer counter the code has exactly 5 characters,
each drawn from the alphabet `0-9A-Z`. -/
theorem generate_appt_code_neg_and_shape (c : Int) :
    (c < 0 → generate_appt_code c = generate_appt_code 0 ∧
      generate_appt_code c = "00000") ∧
    (generate_appt_code c).length = 5 ∧
    ∀ ch ∈ (generate_appt_code c).data, ch ∈ APPT_CODE_CHARS := by
  refine ⟨fun hneg => ?_, ?_, ?_⟩
  · have h0 : c.toNat = 0 := Int.toNat_of_nonpos (le_of_lt hneg)
    rw [generate_appt_code_neg c h0, generate_appt_code_neg 0 rfl]
    exact ⟨rfl, rfl⟩
  · show (rjustTake5 _).length = 5
    exact rjustTake5_length _
  · intro ch hch
    have hmem : ch = '0' ∨
        ch ∈ (if c.toNat = 0 then ['0']
              else ((base36LE c.toNat).map codeChar).reverse) :=
      rjustTake5_mem _ ch hch
    have h0 : ('0' : Char) ∈ APPT_CODE_CHARS := by decide
    rcases hmem with h1 | h2
    · rw [h1]; exact h0
    · by_cases hc : c.toNat = 0
      · rw [if_pos hc] at h2
        rw [List.mem_singleton.mp h2]; exact h0
      · rw [if_neg hc, List.mem_reverse] at h2
        obtain ⟨d, hd, hdc⟩ := List.mem_map.mp h2
        rw [← hdc]
        exact codeChar_mem d (base36LE_digits_lt _ d hd)

/-- Witness for C10 at the concrete counter `-7`. -/
theorem generate_appt_code_neg_and_shape_witness :
    (-7 : Int) < 0 ∧ generate_appt_code (-7) = "00000" :=
  ⟨by decide, ((generate_appt_code_neg_and_shape (-7)).1 (by decide)).2⟩

/-- Modelled from the spec: `src/hash_table.py` is not in the source tree.
Spec §4.1 specifies a string-keyed table (`RecordTable`) with `put`
(insert-or-overwrite, never duplicating a key), `get`, `contains`, `remove`
and a stable `items` iteration.  We model it as an association list with at
most one entry per key: `put` overwrites the existing entry in place or
appends a new entry at the end, `remove` drops the entry. -/
structure HashTable (α : Type) where
  entries : List (String × α)
deriving DecidableEq

def getEntries {κ α : Type} [DecidableEq κ] (l : List (κ × α)) (k : κ) :
    Option α :=
  match l with
  | [] => none
  | p :: tl => if p.1 = k then some p.2 else getEntries tl k

def putEntries {κ α : Type} [DecidableEq κ] (l : List (κ × α)) (k : κ) (v : α) :
    List (κ × α) :=
  match l with
  | [] => [(k, v)]
  | p :: tl => if p.1 = k then (k, v) :: tl else p :: putEntries tl k v

def removeEntries {κ α : Type} [DecidableEq κ] (l : List (κ × α)) (k : κ) :
    List (κ × α) :=
  match l with
  | [] => []
  | p :: tl => if p.1 = k then tl else p :: removeEntries tl k

namespace HashTable

variable {α : Type}

def empty : HashTable α := ⟨[]⟩

def get (t : HashTable α) (k : String) : Option α := getEntries t.entries k

def contains (t : HashTable α) (k : String) : Bool := (t.get k).isSome

def put (t : HashTable α) (k : String) (v : α) : HashTable α :=
  ⟨putEntries t.entries k v⟩

def remove (t : HashTable α) (k : String) : HashTable α :=
  ⟨removeEntries t.entries k⟩

def items (t : HashTable α) : List (String × α) := t.entries

def size (t : HashTable α) : Nat := t.entries.length

/-- Key uniqueness, the table invariant of spec §3. -/
def Wf (t : HashTable α) : Prop := (t.entries.map Prod.fst).Nodup

theorem wf_empty : (empty : HashTable α).Wf := by
  simp [Wf, empty]

theorem get_put_self (t : HashTable α) (k : String) (v : α) :
    (t.put k v).get k = some v := by
  show getEntries (putEntries t.entries k v) k = some v
  induction t.entries with
  | nil => simp [putEntries, getEntries]
  | cons p tl ih =>
    by_cases h : p.1 = k
    · simp [putEntries, getEntries, h]
    · simp [putEntries, getEntries, h, ih]

theorem get_put_ne (t : HashTable α) (k k' : String) (v : α) (hne : k' ≠ k) :
    (t.put k v).get k' = t.get k' := by
  have hkk : ¬ k = k' := fun h => hne h.symm
  show getEntries (putEntries t.entries k v) k' = getEntries t.entries k'
  induction t.entries with
  | nil => simp [putEntries, getEntries, hkk]
  | cons p tl ih =>
    by_cases h : p.1 = k
    · have h2 : ¬ p.1 = k' := by rw [h]; exact hkk
      simp [putEntries, getEntries, h, hkk, h2]
    · by_cases h2 : p.1 = k'
      · simp [putEntries, getEntries, h, h2, hne]
      · simp [putEntries, getEntries, h, h2, hne, ih]

theorem get_remove_ne (t : HashTable α) (k k' : String) (hne : k' ≠ k) :
    (t.remove k).get k' = t.get k' := by
  have hkk : ¬ k = k' := fun h => hne h.symm
  show getEntries (removeEntries t.entries k) k' = getEntries t.entries k'
  induction t.entries with
  | nil => rfl
  | cons p tl ih =>
    by_cases h : p.1 = k
    · have h2 : ¬ p.1 = k' := by rw [h]; exact hkk
      simp [removeEntries, getEntries, h, h2, hkk]
    · by_cases h2 : p.1 = k'
      · simp [removeEntries, getEntries, h, h2, hne]
      · simp [removeEntries, getEntries, h, h2, hne, ih]

theorem getEntries_eq_none_of_not_mem {κ : Type} [DecidableEq κ]
    {α : Type} (l : List (κ × α)) (k : κ)
    (h : k ∉ l.map Prod.fst) : getEntries l k = none := by
  induction l with
  | nil => rfl
  | cons p tl ih =>
    simp only [List.map_cons, List.mem_cons] at h
    push_neg at h
    have h1 : ¬ p.1 = k := fun h2 => h.1 h2.symm
    simp [getEntries, h1, ih h.2]

theorem getEntries_isSome_of_mem {κ : Type} [DecidableEq κ]
    {α : Type} (l : List (κ × α)) (k : κ)
    (h : k ∈ l.map Prod.fst) : (getEntries l k).isSome = true := by
  induction l with
  | nil => simp at h
  | cons p tl ih =>
    by_cases hp : p.1 = k
    · simp [getEntries, hp]
    · have hk : k ≠ p.1 := fun hh => hp hh.symm
      simp only [List.map_cons, List.mem_cons] at h
      rcases h with h | h
      · exact absurd h hk
      · simp [getEntries, hp, ih h]

theorem removeEntries_get_none (l : List (String × α)) (k : String)
    (hnd : (l.map Prod.fst).Nodup) : getEntries (removeEntries l k) k = none := by
  induction l with
  | nil => rfl
  | cons p tl ih =>
    simp only [List.map_cons, List.nodup_cons] at hnd
    by_cases h : p.1 = k
    · simp only [removeEntries, if_pos h]
      exact getEntries_eq_none_of_not_mem tl k (h ▸ hnd.1)
    · simp [removeEntries, getEntries, h, ih hnd.2]

theorem get_remove_self (t : HashTable α) (k : String) (hwf : t.Wf) :
    (t.remove k).get k = none :=
  removeEntries_get_none t.entries k hwf

theorem contains_put (t : HashTable α) (k k' : String) (v : α) :
    (t.put k v).contains k' = (k' = k ∨ t.contains k' : Bool) := by
  by_cases h : k' = k
  · subst h
    simp [contains, get_put_self]
  · simp [contains, get_put_ne t k k' v h, h]

theorem contains_remove_ne (t : HashTable α) (k k' : String) (hne : k' ≠ k) :
    (t.remove k).contains k' = t.contains k' := by
  simp [contains, get_remove_ne t k k' hne]

theorem keys_putEntries (l : List (String × α)) (k : String) (v : α) :
    (putEntries l k v).map Prod.fst = l.map Prod.fst ∨
    ((putEntries l k v).map Prod.fst = l.map Prod.fst ++ [k] ∧
      getEntries l k = none) := by
  induction l with
  | nil => right; simp [putEntries, getEntries]
  | cons p tl ih =>
    by_cases h : p.1 = k
    · left; simp [putEntries, h]
    · rcases ih with h1 | ⟨h1, h2⟩
      · left; simp [putEntries, h, h1]
      · right
        constructor
        · simp [putEntries, h, h1]
        · simp [getEntries, h, h2]

theorem wf_put (t : HashTable α) (k : String) (v : α) (hwf : t.Wf) :
    (t.put k v).Wf := by
  unfold Wf at hwf ⊢
  show ((putEntries t.entries k v).map Prod.fst).Nodup
  rcases keys_putEntries t.entries k v with h | ⟨h, h2⟩
  · rw [h]; exact hwf
  · rw [h, List.nodup_append]
    refine ⟨hwf, List.nodup_singleton k, ?_⟩
    intro a ha hb
    rw [List.mem_singleton] at hb
    subst hb
    have hs := getEntries_isSome_of_mem t.entries a ha
    rw [h2] at hs
    exact Bool.noConfusion hs

theorem removeEntries_sublist (l : List (String × α)) (k : String) :
    (removeEntries l k).Sublist l := by
  induction l with
  | nil => simp [removeEntries]
  | cons p tl ih =>
    by_cases h : p.1 = k
    · simp only [removeEntries, if_pos h]
      exact List.sublist_cons_self p tl
    · simp only [removeEntries, if_neg h]
      exact ih.cons₂ p

theorem wf_remove (t : HashTable α) (k : String) (hwf : t.Wf) :
    (t.remove k).Wf := by
  unfold Wf at hwf ⊢
  exact List.Nodup.sublist (List.Sublist.map Prod.fst (removeEntries_sublist t.entries k)) hwf

end HashTable

/-- Python's `str.strip()`: drop leading and trailing whitespace. -/
def stripChars (l : List Char) : List Char :=
  ((l.dropWhile Char.isWhitespace).reverse.dropWhile Char.isWhitespace).reverse

/-- Python's `str.strip()` on a `String`. -/
def pyStrip (s : String) : String := String.mk (stripChars s.data)

/-- Python's `str.upper()` on a `String`. -/
def pyUpper (s : String) : String := String.mk (s.data.map Char.toUpper)

/-- The value of a decimal digit character. -/
def digitVal (c : Char) : Option Nat :=
  if '0' ≤ c ∧ c ≤ '9' then some (c.toNat - '0'.toNat) else none

def digitsToNatAux : List Char → Nat → Option Nat
  | [], acc => some acc
  | c :: tl, acc =>
    match digitVal c with
    | none => none
    | some d => digitsToNatAux tl (acc * 10 + d)

/-- Python's `int(...)` on a stripped string: an optional sign followed by
at least one decimal digit. -/
def pyToInt (s : String) : Option Int :=
  match s.data with
  | [] => none
  | '-' :: rest =>
    if rest.isEmpty then none
    else (digitsToNatAux rest 0).map (fun n => -(n : Int))
  | '+' :: rest =>
    if rest.isEmpty then none
    else (digitsToNatAux rest 0).map (fun n => (n : Int))
  | l => (digitsToNatAux l 0).map (fun n => (n : Int))

/-- Modelled from the spec: `src/patient.py` is not in the source tree.
Spec §3 and §6 specify a plain record with `patient_id`, `name`, `age`,
`gender`, `phone`, `medical_notes` and an owned append-only visit history
(a linked list of text entries, here a `List String`). -/
structure Patient where
  patient_id : String
  name : String
  age : Int
  gender : String
  phone : String
  medical_notes : String
  visits : List String
deriving DecidableEq

/-- Modelled from the spec: `LinkedHistory.append` (§4.4) adds an entry at
the end, preserving insertion order. -/
def Patient.add_visit (p : Patient) (s : String) : Patient :=
  { p with visits := p.visits ++ [s] }

/-- `register_patient_flow` from `main.py`: an existing `patient_id` is
rejected before any further input is read or a record is built; otherwise
the new `Patient` is stored.  The result carries the optional new patient,
the resulting registry, and the error messages printed. -/
def register_patient_flow (registry : HashTable Patient) (pid : String)
    (name : String) (age : Int) (gender phone notes : String) :
    Option Patient × HashTable Patient × List String :=
  if registry.contains pid then
    (none, registry, ["ERROR: patient_id already exists."])
  else
    let patient : Patient := ⟨pid, name, age, pyUpper gender, phone, notes, []⟩
    (some patient, registry.put pid patient, [])

/-- C6: registering a `patient_id` that already exists is rejected with the
"already exists" message, no patient record is produced, and the registry
is returned unchanged, so the existing entry is never overwritten. -/
theorem register_patient_flow_duplicate_rejected (registry : HashTable Patient)
    (pid name : String) (age : Int) (gender phone notes : String)
    (h : registry.contains pid = true) :
    (register_patient_flow registry pid name age gender phone notes).1 = none ∧
    (register_patient_flow registry pid name age gender phone notes).2.1 = registry ∧
    (register_patient_flow registry pid name age gender phone notes).2.2 =
      ["ERROR: patient_id already exists."] := by
  simp [register_patient_flow, h]

/-- A sample patient used by concrete witnesses. -/
def samplePatient : Patient :=
  ⟨"P1", "Alice", 30, "F", "555", "", []⟩

/-- Witness for C6: re-registering `"P1"` on a registry that already holds
`"P1"` is rejected and leaves the registry unchanged. -/
theorem register_patient_flow_duplicate_rejected_witness :
    ((HashTable.empty.put "P1" samplePatient).contains "P1" = true) ∧
    (register_patient_flow (HashTable.empty.put "P1" samplePatient)
      "P1" "Bob" 40 "M" "556" "").1 = none ∧
    (register_patient_flow (HashTable.empty.put "P1" samplePatient)
      "P1" "Bob" 40 "M" "556" "").2.1 = HashTable.empty.put "P1" samplePatient :=
  ⟨by decide,
   (register_patient_flow_duplicate_rejected _ "P1" "Bob" 40 "M" "556" ""
     (by decide)).1,
   (register_patient_flow_duplicate_rejected _ "P1" "Bob" 40 "M" "556" ""
     (by decide)).2.1⟩

/-- A row of `records.csv` as `csv.DictReader` yields it: each field may be
missing (`row.get(...) or ""` in the source turns a missing field into the
empty string). -/
structure CsvRow where
  patient_id : Option String
  name : Option String
  age : Option String
  gender : Option String
  phone : Option String
  medical_notes : Option String

/-- `_row_to_patient` from `src/storage.py`: strip every field, require the
five identity fields nonempty, parse the age as an integer, restrict the
gender to `M`/`F`/`O`, and build the `Patient`. -/
def row_to_patient (row : CsvRow) : Option Patient :=
  let pid := pyStrip (row.patient_id.getD "")
  let name := pyStrip (row.name.getD "")
  let age_text := pyStrip (row.age.getD "")
  let gender := pyUpper (pyStrip (row.gender.getD ""))
  let phone := pyStrip (row.phone.getD "")
  let notes := pyStrip (row.medical_notes.getD "")
  if pid = "" ∨ name = "" ∨ age_text = "" ∨ gender = "" ∨ phone = "" then none
  else
    match pyToInt age_text with
    | none => none
    | some age =>
      if gender = "M" ∨ gender = "F" ∨ gender = "O" then
        some ⟨pid, name, age, gender, phone, notes, []⟩
      else none

/-- `_load_csv_patients` from `src/storage.py`: a missing or unreadable file
yields no patients (`none` input); otherwise the valid rows are parsed. -/
def load_csv_patients (rows : Option (List CsvRow)) : List Patient :=
  match rows with
  | none => []
  | some rs => rs.filterMap row_to_patient

/-- One step of the CSV import loop of `load_state` (`src/storage.py`
lines 114-118): a parsed CSV patient is added only when its `patient_id` is
not already present; the counter tracks the number of imports. -/
def csvStep (acc : HashTable Patient × Nat) (patient : Patient) :
    HashTable Patient × Nat :=
  if acc.1.contains patient.patient_id then acc
  else (acc.1.put patient.patient_id patient, acc.2 + 1)

/-- The whole CSV import loop of `load_state`. -/
def csv_import (registry : HashTable Patient) (ps : List Patient) :
    HashTable Patient × Nat :=
  ps.foldl csvStep (registry, 0)

theorem csv_fold_frame (ps : List Patient) (r : HashTable Patient) (n : Nat)
    (k : String) (h : r.contains k = true) :
    ((ps.foldl csvStep (r, n)).1.get k = r.get k ∧
     (ps.foldl csvStep (r, n)).1.contains k = true) := by
  induction ps generalizing r n with
  | nil => exact ⟨rfl, h⟩
  | cons p tl ih =>
    simp only [List.foldl_cons, csvStep]
    by_cases hc : r.contains p.patient_id = true
    · simp only [hc, if_true]
      exact ih r n h
    · have hne : k ≠ p.patient_id := by
        intro he; rw [he] at h; exact hc h
      have hcb : r.contains p.patient_id = false := by
        cases hcv : r.contains p.patient_id with
        | true => exact absurd hcv hc
        | false => rfl
      simp only [hcb, Bool.false_eq_true, if_false]
      have hget := HashTable.get_put_ne r p.patient_id k p hne
      have hcon : (r.put p.patient_id p).contains k = true := by
        rw [HashTable.contains_put]
        simp [h]
      have hih := ih (r.put p.patient_id p) (n + 1) hcon
      exact ⟨hih.1.trans hget, hih.2⟩

theorem csv_fold_mem_contains (ps : List Patient) (r : HashTable Patient)
    (n : Nat) (p : Patient) (hp : p ∈ ps) :
    (ps.foldl csvStep (r, n)).1.contains p.patient_id = true := by
  induction ps generalizing r n with
  | nil => exact absurd hp (List.not_mem_nil p)
  | cons q tl ih =>
    simp only [List.foldl_cons, csvStep]
    rcases List.mem_cons.mp hp with he | ht
    · subst he
      by_cases hc : r.contains p.patient_id = true
      · simp only [hc, if_true]
        exact (csv_fold_frame tl r n p.patient_id hc).2
      · have hcb : r.contains p.patient_id = false := by
          cases hcv : r.contains p.patient_id with
          | true => exact absurd hcv hc
          | false => rfl
        simp only [hcb, Bool.false_eq_true, if_false]
        have hcon : (r.put p.patient_id p).contains p.patient_id = true := by
          rw [HashTable.contains_put]; simp
        exact (csv_fold_frame tl (r.put p.patient_id p) (n + 1) p.patient_id hcon).2
    · by_cases hc : r.contains q.patient_id = true
      · simp only [hc, if_true]
        exact ih r n ht
      · have hcb : r.contains q.patient_id = false := by
          cases hcv : r.contains q.patient_id with
          | true => exact absurd hcv hc
          | false => rfl
        simp only [hcb, Bool.false_eq_true, if_false]
        exact ih (r.put q.patient_id q) (n + 1) ht

theorem csv_fold_untouched (ps : List Patient) (r : HashTable Patient)
    (n : Nat) (k : String) (h : ∀ q ∈ ps, q.patient_id ≠ k) :
    (ps.foldl csvStep (r, n)).1.get k = r.get k := by
  induction ps generalizing r n with
  | nil => rfl
  | cons q tl ih =>
    simp only [List.foldl_cons, csvStep]
    have hq : q.patient_id ≠ k := h q (List.mem_cons_self q tl)
    have ht : ∀ x ∈ tl, x.patient_id ≠ k := fun x hx => h x (List.mem_cons_of_mem q hx)
    by_cases hc : r.contains q.patient_id = true
    · simp only [hc, if_true]
      exact ih r n ht
    · have hcb : r.contains q.patient_id = false := by
        cases hcv : r.contains q.patient_id with
        | true => exact absurd hcv hc
        | false => rfl
      simp only [hcb, Bool.false_eq_true, if_false]
      rw [ih (r.put q.patient_id q) (n + 1) ht]
      exact HashTable.get_put_ne r q.patient_id k q (fun he => hq he.symm)

theorem csv_fold_absent_added (ps : List Patient) (r : HashTable Patient)
    (n : Nat) (p : Patient) (hnd : (ps.map Patient.patient_id).Nodup)
    (hp : p ∈ ps) (habs : r.contains p.patient_id = false) :
    (ps.foldl csvStep (r, n)).1.get p.patient_id = some p := by
  induction ps generalizing r n with
  | nil => exact absurd hp (List.not_mem_nil p)
  | cons q tl ih =>
    simp only [List.map_cons, List.nodup_cons] at hnd
    simp only [List.foldl_cons, csvStep]
    rcases List.mem_cons.mp hp with he | ht
    · subst he
      simp only [habs, Bool.false_eq_true, if_false]
      have hnt : ∀ x ∈ tl, x.patient_id ≠ p.patient_id := by
        intro x hx he
        exact hnd.1 (he ▸ List.mem_map_of_mem Patient.patient_id hx)
      rw [csv_fold_untouched tl (r.put p.patient_id p) (n + 1) p.patient_id hnt]
      exact HashTable.get_put_self r p.patient_id p
    · have hqp : q.patient_id ≠ p.patient_id := by
        intro he
        exact hnd.1 (he ▸ List.mem_map_of_mem Patient.patient_id ht)
      by_cases hc : r.contains q.patient_id = true
      · simp only [hc, if_true]
        exact ih r n hnd.2 ht habs
      · have hcb : r.contains q.patient_id = false := by
          cases hcv : r.contains q.patient_id with
          | true => exact absurd hcv hc
          | false => rfl
        simp only [hcb, Bool.false_eq_true, if_false]
        have hpq : ¬ p.patient_id = q.patient_id := fun he => hqp he.symm
        have habs2 : (r.put q.patient_id q).contains p.patient_id = false := by
          rw [HashTable.contains_put]
          simp [habs, hpq]
        exact ih (r.put q.patient_id q) (n + 1) hnd.2 ht habs2

/-- C8: the CSV import never overwrites: every `patient_id` present before
the import keeps exactly its previous record; every parsed CSV patient is
present afterwards; and a CSV patient whose id was absent from the
structured store is added verbatim (stated for CSV files with distinct
ids, as produced by the system itself). -/
theorem csv_import_adds_never_overwrites (r : HashTable Patient)
    (ps : List Patient) :
    (∀ k, r.contains k = true →
      (csv_import r ps).1.get k = r.get k ∧
      (csv_import r ps).1.contains k = true) ∧
    (∀ p ∈ ps, (csv_import r ps).1.contains p.patient_id = true) ∧
    ((ps.map Patient.patient_id).Nodup →
      ∀ p ∈ ps, r.contains p.patient_id = false →
        (csv_import r ps).1.get p.patient_id = some p) :=
  ⟨fun k hk => csv_fold_frame ps r 0 k hk,
   fun p hp => csv_fold_mem_contains ps r 0 p hp,
   fun hnd p hp habs => csv_fold_absent_added ps r 0 p hnd hp habs⟩

/-- Witness for C8 on a concrete registry holding `"P1"` and a CSV list
with the fresh patient `"P2"`. -/
theorem csv_import_adds_never_overwrites_witness :
    ((HashTable.empty.put "P1" samplePatient).contains "P1" = true ∧
      (csv_import (HashTable.empty.put "P1" samplePatient)
        [⟨"P2", "Bob", 41, "M", "556", "", []⟩]).1.get "P1" =
        (HashTable.empty.put "P1" samplePatient).get "P1") ∧
    (csv_import (HashTable.empty.put "P1" samplePatient)
        [⟨"P2", "Bob", 41, "M", "556", "", []⟩]).1.get "P2" =
      some ⟨"P2", "Bob", 41, "M", "556", "", []⟩ :=
  ⟨⟨by decide,
    ((csv_import_adds_never_overwrites (HashTable.empty.put "P1" samplePatient)
      [⟨"P2", "Bob", 41, "M", "556", "", []⟩]).1 "P1" (by decide)).1⟩,
   (csv_import_adds_never_overwrites (HashTable.empty.put "P1" samplePatient)
      [⟨"P2", "Bob", 41, "M", "556", "", []⟩]).2.2 (by decide)
      ⟨"P2", "Bob", 41, "M", "556", "", []⟩ (by decide) (by decide)⟩

/-- Modelled from the spec: `src/appointment.py` is not in the source tree.
Spec §3: an appointment has a `patient_id`, a date-time normalized to minute
resolution (represented here by its minute count `minutes`, which stands for
the normalized `"YYYY-MM-DD HH:MM"` string: `key_minutes()` returns it and
the constructor parses it back), and an optional 5-character `code` handle
(`None` until assigned). -/
structure Appointment where
  patient_id : String
  minutes : Int
  code : Option String
deriving DecidableEq

/-- Modelled from the spec: `src/tree.py` is not in the source tree.
Spec §4.2 (`ScheduleTree`): an unbalanced binary search tree over integer
keys with `insert` (no-op when the key is present), `find`, `delete`
(two-child nodes replaced by the in-order successor, the minimum of the
right subtree) and in-order iteration `items`. -/
inductive Tree (α : Type) where
  | leaf
  | node (l : Tree α) (k : Int) (v : α) (r : Tree α)
deriving DecidableEq

namespace Tree

variable {α : Type}

def find : Tree α → Int → Option α
  | leaf, _ => none
  | node l k' v r, k =>
    if k < k' then find l k
    else if k' < k then find r k
    else some v

def insert : Tree α → Int → α → Tree α
  | leaf, k, v => node leaf k v leaf
  | node l k' v' r, k, v =>
    if k < k' then node (insert l k v) k' v' r
    else if k' < k then node l k' v' (insert r k v)
    else node l k' v' r

/-- Remove and return the in-order first (minimum-key) entry. -/
def delMin : Tree α → Option ((Int × α) × Tree α)
  | leaf => none
  | node l k v r =>
    match delMin l with
    | none => some ((k, v), r)
    | some (m, l2) => some (m, node l2 k v r)

/-- Spec §4.2 deletion: descend by comparison; at the key, replace the node
by its in-order successor pulled from the right subtree (or by the left
subtree when there is no right subtree). -/
def delete : Tree α → Int → Tree α
  | leaf, _ => leaf
  | node l k' v r, k =>
    if k < k' then node (delete l k) k' v r
    else if k' < k then node l k' v (delete r k)
    else
      match delMin r with
      | none => l
      | some ((sk, sv), r2) => node l sk sv r2

/-- In-order traversal, the `items()` of the spec. -/
def toList : Tree α → List (Int × α)
  | leaf => []
  | node l k v r => toList l ++ (k, v) :: toList r

def size (t : Tree α) : Nat := t.toList.length

def contains (t : Tree α) (k : Int) : Bool := (t.find k).isSome

/-- Every key of the tree satisfies `p`. -/
def AllKeys (p : Int → Prop) : Tree α → Prop
  | leaf => True
  | node l k _ r => p k ∧ AllKeys p l ∧ AllKeys p r

/-- The binary-search ordering invariant of spec §3/§4.2. -/
def Ordered : Tree α → Prop
  | leaf => True
  | node l k _ r => Ordered l ∧ Ordered r ∧ AllKeys (· < k) l ∧ AllKeys (k < ·) r

theorem allKeys_mono {p q : Int → Prop} (hpq : ∀ k, p k → q k) :
    ∀ (t : Tree α), AllKeys p t → AllKeys q t
  | leaf, _ => trivial
  | node l k _ r, h => ⟨hpq k h.1, allKeys_mono hpq l h.2.1, allKeys_mono hpq r h.2.2⟩

theorem allKeys_insert {p : Int → Prop} (t : Tree α) (k : Int) (v : α)
    (ht : AllKeys p t) (hk : p k) : AllKeys p (insert t k v) := by
  induction t with
  | leaf => exact ⟨hk, trivial, trivial⟩
  | node l k' v' r ihl ihr =>
    unfold insert
    by_cases h1 : k < k'
    · simp only [if_pos h1]
      exact ⟨ht.1, ihl ht.2.1, ht.2.2⟩
    · simp only [if_neg h1]
      by_cases h2 : k' < k
      · simp only [if_pos h2]
        exact ⟨ht.1, ht.2.1, ihr ht.2.2⟩
      · simp only [if_neg h2]
        exact ht

theorem ordered_insert (t : Tree α) (k : Int) (v : α) (ht : Ordered t) :
    Ordered (insert t k v) := by
  induction t with
  | leaf => exact ⟨trivial, trivial, trivial, trivial⟩
  | node l k' v' r ihl ihr =>
    unfold insert
    by_cases h1 : k < k'
    · simp only [if_pos h1]
      exact ⟨ihl ht.1, ht.2.1, allKeys_insert l k v ht.2.2.1 h1, ht.2.2.2⟩
    · simp only [if_neg h1]
      by_cases h2 : k' < k
      · simp only [if_pos h2]
        exact ⟨ht.1, ihr ht.2.1, ht.2.2.1, allKeys_insert r k v ht.2.2.2 h2⟩
      · simp only [if_neg h2]
        exact ht

theorem find_insert_self (t : Tree α) (k : Int) (v : α)
    (habs : t.find k = none) : (t.insert k v).find k = some v := by
  induction t with
  | leaf => simp [insert, find]
  | node l k' v' r ihl ihr =>
    unfold insert
    by_cases h1 : k < k'
    · simp only [if_pos h1]
      unfold find at habs ⊢
      simp only [if_pos h1] at habs ⊢
      exact ihl habs
    · simp only [if_neg h1]
      by_cases h2 : k' < k
      · simp only [if_pos h2]
        unfold find at habs ⊢
        simp only [if_neg h1, if_pos h2] at habs ⊢
        exact ihr habs
      · unfold find at habs
        simp only [if_neg h1, if_neg h2] at habs
        exact Option.noConfusion habs

theorem find_insert_ne (t : Tree α) (k k' : Int) (v : α) (hne : k' ≠ k) :
    (t.insert k v).find k' = t.find k' := by
  induction t with
  | leaf =>
    unfold insert find
    rcases lt_trichotomy k' k with h | h | h
    · simp [h, find]
    · exact absurd h hne
    · simp [h, not_lt_of_lt h, find]
  | node l kn vn r ihl ihr =>
    unfold insert
    by_cases h1 : k < kn
    · simp only [if_pos h1]
      unfold find
      by_cases h2 : k' < kn
      · simp only [if_pos h2]; exact ihl
      · simp only [if_neg h2]
    · simp only [if_neg h1]
      by_cases h2 : kn < k
      · simp only [if_pos h2]
        unfold find
        by_cases h3 : k' < kn
        · simp only [if_pos h3]
        · simp only [if_neg h3]
          by_cases h4 : kn < k'
          · simp only [if_pos h4]; exact ihr
          · simp only [if_neg h4]
      · simp only [if_neg h2]

end Tree

namespace Tree

variable {α : Type}

theorem delMin_eq_none_iff (t : Tree α) : delMin t = none ↔ t = leaf := by
  cases t with
  | leaf => simp [delMin]
  | node l k v r =>
    simp only [delMin]
    cases hl : delMin l with
    | none => simp
    | some m => simp

theorem delMin_toList (t : Tree α) (m : Int × α) (t2 : Tree α)
    (h : delMin t = some (m, t2)) : toList t = m :: toList t2 := by
  induction t generalizing m t2 with
  | leaf => exact Option.noConfusion h
  | node l k v r ihl ihr =>
    simp only [delMin] at h
    cases hl : delMin l with
    | none =>
      rw [hl] at h
      simp only [Option.some.injEq, Prod.mk.injEq] at h
      have hleaf : l = leaf := (delMin_eq_none_iff l).mp hl
      subst hleaf
      rw [← h.1, ← h.2]
      simp [toList]
    | some p =>
      obtain ⟨m1, l2⟩ := p
      rw [hl] at h
      simp only [Option.some.injEq, Prod.mk.injEq] at h
      rw [← h.1, ← h.2]
      simp only [toList, ihl m1 l2 hl]
      rfl

theorem allKeys_delMin {p : Int → Prop} (t : Tree α) (m : Int × α) (t2 : Tree α)
    (hall : AllKeys p t) (h : delMin t = some (m, t2)) :
    p m.1 ∧ AllKeys p t2 := by
  induction t generalizing m t2 with
  | leaf => exact Option.noConfusion h
  | node l k v r ihl ihr =>
    simp only [delMin] at h
    cases hl : delMin l with
    | none =>
      rw [hl] at h
      simp only [Option.some.injEq, Prod.mk.injEq] at h
      rw [← h.1, ← h.2]
      exact ⟨hall.1, hall.2.2⟩
    | some q =>
      obtain ⟨m1, l2⟩ := q
      rw [hl] at h
      simp only [Option.some.injEq, Prod.mk.injEq] at h
      obtain ⟨hm, hal2⟩ := ihl m1 l2 hall.2.1 hl
      rw [← h.1, ← h.2]
      exact ⟨hm, hall.1, hal2, hall.2.2⟩

theorem ordered_delMin (t : Tree α) (m : Int × α) (t2 : Tree α)
    (hord : Ordered t) (h : delMin t = some (m, t2)) :
    Ordered t2 ∧ AllKeys (fun x => m.1 < x) t2 := by
  induction t generalizing m t2 with
  | leaf => exact Option.noConfusion h
  | node l k v r ihl ihr =>
    obtain ⟨hol, hor, hall, halr⟩ := hord
    simp only [delMin] at h
    cases hl : delMin l with
    | none =>
      rw [hl] at h
      simp only [Option.some.injEq, Prod.mk.injEq] at h
      rw [← h.1, ← h.2]
      exact ⟨hor, halr⟩
    | some q =>
      obtain ⟨m1, l2⟩ := q
      rw [hl] at h
      simp only [Option.some.injEq, Prod.mk.injEq] at h
      obtain ⟨hol2, hmin⟩ := ihl m1 l2 hol hl
      obtain ⟨hmk, hal2⟩ := allKeys_delMin l m1 l2 hall hl
      rw [← h.1, ← h.2]
      refine ⟨⟨hol2, hor, hal2, halr⟩, hmk, hmin, ?_⟩
      exact allKeys_mono (fun x hx => lt_trans hmk hx) r halr

theorem allKeys_iff_toList {p : Int → Prop} (t : Tree α) :
    AllKeys p t ↔ ∀ x ∈ toList t, p x.1 := by
  induction t with
  | leaf => simp [AllKeys, toList]
  | node l k v r ihl ihr =>
    simp only [AllKeys, toList, List.mem_append, List.mem_cons, ihl, ihr]
    constructor
    · rintro ⟨hk, hl, hr⟩ x (hx | hx | hx)
      · exact hl x hx
      · rw [hx]; exact hk
      · exact hr x hx
    · intro h
      exact ⟨h (k, v) (Or.inr (Or.inl rfl)),
        fun x hx => h x (Or.inl hx),
        fun x hx => h x (Or.inr (Or.inr hx))⟩

theorem getEntries_append {κ β : Type} [DecidableEq κ]
    (l1 l2 : List (κ × β)) (k : κ) :
    getEntries (l1 ++ l2) k =
      match getEntries l1 k with
      | some v => some v
      | none => getEntries l2 k := by
  induction l1 with
  | nil => simp [getEntries]
  | cons p tl ih =>
    by_cases h : p.1 = k
    · simp [getEntries, h]
    · simp [getEntries, h, ih]

theorem find_eq_getEntries (t : Tree α) (hord : Ordered t) (k : Int) :
    t.find k = getEntries t.toList k := by
  induction t with
  | leaf => rfl
  | node l kn v r ihl ihr =>
    obtain ⟨hol, hor, hall, halr⟩ := hord
    have hlk : ∀ x ∈ toList l, x.1 < kn := (allKeys_iff_toList l).mp hall
    have hrk : ∀ x ∈ toList r, kn < x.1 := (allKeys_iff_toList r).mp halr
    show find _ _ = getEntries (toList l ++ (kn, v) :: toList r) k
    rw [getEntries_append]
    rcases lt_trichotomy k kn with h | h | h
    · have hr0 : getEntries (toList r) k = none := by
        apply HashTable.getEntries_eq_none_of_not_mem
        intro hmem
        obtain ⟨x, hx, hxk⟩ := List.mem_map.mp hmem
        exact absurd (hxk ▸ hrk x hx) (by omega)
      have hkkn : ¬ kn = k := by omega
      unfold find
      simp only [if_pos h]
      rw [ihl hol]
      cases hg : getEntries (toList l) k with
      | some w => simp [hg]
      | none => simp [hg, getEntries, hkkn, hr0]
    · subst h
      have hl0 : getEntries (toList l) k = none := by
        apply HashTable.getEntries_eq_none_of_not_mem
        intro hmem
        obtain ⟨x, hx, hxk⟩ := List.mem_map.mp hmem
        exact absurd (hxk ▸ hlk x hx) (by omega)
      unfold find
      simp [hl0, getEntries, lt_irrefl]
    · have hl0 : getEntries (toList l) k = none := by
        apply HashTable.getEntries_eq_none_of_not_mem
        intro hmem
        obtain ⟨x, hx, hxk⟩ := List.mem_map.mp hmem
        have := hlk x hx
        omega
      have hkkn : ¬ kn = k := by omega
      unfold find
      simp only [if_neg (by omega : ¬ k < kn), if_pos h]
      rw [ihr hor]
      simp [hl0, getEntries, hkkn]

end Tree

namespace Tree

variable {α : Type}

theorem allKeys_delete {p : Int → Prop} (t : Tree α) (k : Int)
    (h : AllKeys p t) : AllKeys p (delete t k) := by
  induction t with
  | leaf => trivial
  | node l kn v r ihl ihr =>
    unfold delete
    by_cases h1 : k < kn
    · simp only [if_pos h1]
      exact ⟨h.1, ihl h.2.1, h.2.2⟩
    · simp only [if_neg h1]
      by_cases h2 : kn < k
      · simp only [if_pos h2]
        exact ⟨h.1, h.2.1, ihr h.2.2⟩
      · simp only [if_neg h2]
        cases hm : delMin r with
        | none => exact h.2.1
        | some q =>
          obtain ⟨⟨sk, sv⟩, r2⟩ := q
          obtain ⟨hsk, hr2⟩ := allKeys_delMin r (sk, sv) r2 h.2.2 hm
          exact ⟨hsk, h.2.1, hr2⟩

theorem ordered_delete (t : Tree α) (k : Int) (hord : Ordered t) :
    Ordered (delete t k) := by
  induction t with
  | leaf => trivial
  | node l kn v r ihl ihr =>
    obtain ⟨hol, hor, hall, halr⟩ := hord
    unfold delete
    by_cases h1 : k < kn
    · simp only [if_pos h1]
      exact ⟨ihl hol, hor, allKeys_delete l k hall, halr⟩
    · simp only [if_neg h1]
      by_cases h2 : kn < k
      · simp only [if_pos h2]
        exact ⟨hol, ihr hor, hall, allKeys_delete r k halr⟩
      · simp only [if_neg h2]
        cases hm : delMin r with
        | none => exact hol
        | some q =>
          obtain ⟨⟨sk, sv⟩, r2⟩ := q
          obtain ⟨hor2, hmin⟩ := ordered_delMin r (sk, sv) r2 hor hm
          obtain ⟨hsk, _⟩ := allKeys_delMin r (sk, sv) r2 halr hm
          refine ⟨hol, hor2, ?_, hmin⟩
          exact allKeys_mono (fun x hx => lt_trans hx hsk) l hall

theorem toList_delete (t : Tree α) (k : Int) (hord : Ordered t) :
    toList (delete t k) = (toList t).filter (fun x => decide (x.1 ≠ k)) := by
  induction t with
  | leaf => rfl
  | node l kn v r ihl ihr =>
    obtain ⟨hol, hor, hall, halr⟩ := hord
    have hlk : ∀ x ∈ toList l, x.1 < kn := (allKeys_iff_toList l).mp hall
    have hrk : ∀ x ∈ toList r, kn < x.1 := (allKeys_iff_toList r).mp halr
    unfold delete
    by_cases h1 : k < kn
    · simp only [if_pos h1]
      have hkeep : (toList r).filter (fun x => decide (x.1 ≠ k)) = toList r := by
        rw [List.filter_eq_self]
        intro x hx
        have := hrk x hx
        simp; omega
      show toList (delete l k) ++ (kn, v) :: toList r =
        ((toList l ++ (kn, v) :: toList r).filter (fun x => decide (x.1 ≠ k)))
      rw [List.filter_append, List.filter_cons, ihl hol]
      simp only [show (decide ((kn, v).1 ≠ k)) = true by simp; omega, if_true, hkeep]
    · simp only [if_neg h1]
      by_cases h2 : kn < k
      · simp only [if_pos h2]
        have hkeep : (toList l).filter (fun x => decide (x.1 ≠ k)) = toList l := by
          rw [List.filter_eq_self]
          intro x hx
          have := hlk x hx
          simp; omega
        show toList l ++ (kn, v) :: toList (delete r k) =
          ((toList l ++ (kn, v) :: toList r).filter (fun x => decide (x.1 ≠ k)))
        rw [List.filter_append, List.filter_cons, ihr hor]
        simp only [show (decide ((kn, v).1 ≠ k)) = true by simp; omega, if_true, hkeep]
      · simp only [if_neg h2]
        have hkeq : kn = k := by omega
        subst hkeq
        have hkeepl : (toList l).filter (fun x => decide (x.1 ≠ kn)) = toList l := by
          rw [List.filter_eq_self]
          intro x hx
          have := hlk x hx
          simp; omega
        have hkeepr : (toList r).filter (fun x => decide (x.1 ≠ kn)) = toList r := by
          rw [List.filter_eq_self]
          intro x hx
          have := hrk x hx
          simp; omega
        cases hm : delMin r with
        | none =>
          have hleaf : r = leaf := (delMin_eq_none_iff r).mp hm
          subst hleaf
          show toList l = ((toList l ++ (kn, v) :: toList leaf).filter
            (fun x => decide (x.1 ≠ kn)))
          rw [List.filter_append, List.filter_cons]
          simp only [show (decide ((kn, v).1 ≠ kn)) = false by simp, if_false, hkeepl]
          simp [toList]
        | some q =>
          obtain ⟨⟨sk, sv⟩, r2⟩ := q
          have hrl := delMin_toList r (sk, sv) r2 hm
          show toList l ++ (sk, sv) :: toList r2 =
            ((toList l ++ (kn, v) :: toList r).filter (fun x => decide (x.1 ≠ kn)))
          rw [List.filter_append, List.filter_cons, hkeepl]
          have hd : (decide ((kn, v).1 ≠ kn)) = false := by simp
          rw [hd]
          simp only [Bool.false_eq_true, if_false]
          rw [hkeepr, hrl]

theorem getEntries_filter_self {κ β : Type} [DecidableEq κ]
    (l : List (κ × β)) (k : κ) :
    getEntries (l.filter (fun x => decide (x.1 ≠ k))) k = none := by
  induction l with
  | nil => rfl
  | cons p tl ih =>
    rw [List.filter_cons]
    by_cases h : p.1 = k
    · have hd : (decide (p.1 ≠ k)) = false := by simp [h]
      rw [hd]
      simp only [Bool.false_eq_true, if_false]
      exact ih
    · have hd : (decide (p.1 ≠ k)) = true := by simp [h]
      rw [hd]
      simp only [if_true]
      show getEntries (p :: _) k = none
      simp only [getEntries, if_neg h]
      exact ih

theorem getEntries_filter_ne {κ β : Type} [DecidableEq κ]
    (l : List (κ × β)) (k k' : κ) (hne : k' ≠ k) :
    getEntries (l.filter (fun x => decide (x.1 ≠ k))) k' = getEntries l k' := by
  induction l with
  | nil => rfl
  | cons p tl ih =>
    rw [List.filter_cons]
    by_cases h : p.1 = k
    · have hp : ¬ p.1 = k' := by rw [h]; exact fun hh => hne hh.symm
      have hd : (decide (p.1 ≠ k)) = false := by simp [h]
      rw [hd]
      simp only [Bool.false_eq_true, if_false]
      rw [ih]
      show _ = getEntries (p :: tl) k'
      simp only [getEntries, if_neg hp]
    · have hd : (decide (p.1 ≠ k)) = true := by simp [h]
      rw [hd]
      simp only [if_true]
      show getEntries (p :: _) k' = getEntries (p :: tl) k'
      by_cases h2 : p.1 = k'
      · simp only [getEntries, if_pos h2]
      · simp only [getEntries, if_neg h2]
        exact ih

theorem find_delete_self (t : Tree α) (k : Int) (hord : Ordered t) :
    (delete t k).find k = none := by
  rw [find_eq_getEntries _ (ordered_delete t k hord), toList_delete t k hord,
    getEntries_filter_self]

theorem find_delete_ne (t : Tree α) (k k' : Int) (hord : Ordered t)
    (hne : k' ≠ k) : (delete t k).find k' = t.find k' := by
  rw [find_eq_getEntries _ (ordered_delete t k hord), toList_delete t k hord,
    getEntries_filter_ne _ _ _ hne, ← find_eq_getEntries t hord]

theorem toList_insert_max (t : Tree α) (k : Int) (v : α)
    (h : AllKeys (· < k) t) : toList (insert t k v) = toList t ++ [(k, v)] := by
  induction t with
  | leaf => rfl
  | node l kn vn r ihl ihr =>
    have hk : kn < k := h.1
    unfold insert
    simp only [if_neg (by omega : ¬ k < kn), if_pos hk]
    show toList l ++ (kn, vn) :: toList (insert r k v) = _
    rw [ihr h.2.2]
    simp [toList]

theorem pairwise_keys_toList (t : Tree α) (hord : Ordered t) :
    ((toList t).map Prod.fst).Pairwise (· < ·) := by
  induction t with
  | leaf => simp [toList]
  | node l kn v r ihl ihr =>
    obtain ⟨hol, hor, hall, halr⟩ := hord
    have hlk : ∀ x ∈ toList l, x.1 < kn := (allKeys_iff_toList l).mp hall
    have hrk : ∀ x ∈ toList r, kn < x.1 := (allKeys_iff_toList r).mp halr
    show ((toList l ++ (kn, v) :: toList r).map Prod.fst).Pairwise (· < ·)
    rw [List.map_append, List.map_cons, List.pairwise_append]
    refine ⟨ihl hol, ?_, ?_⟩
    · rw [List.pairwise_cons]
      refine ⟨?_, ihr hor⟩
      intro b hb
      obtain ⟨x, hx, hxb⟩ := List.mem_map.mp hb
      exact hxb ▸ hrk x hx
    · intro a ha b hb
      obtain ⟨x, hx, hxa⟩ := List.mem_map.mp ha
      rcases List.mem_cons.mp hb with hb1 | hb2
      · rw [← hxa, hb1]
        exact hlk x hx
      · obtain ⟨y, hy, hyb⟩ := List.mem_map.mp hb2
        rw [← hxa, ← hyb]
        exact lt_trans (hlk x hx) (hrk y hy)

theorem foldl_insert_sorted (ps : List (Int × α)) (t : Tree α)
    (h : ((toList t ++ ps).map Prod.fst).Pairwise (· < ·)) :
    toList (ps.foldl (fun acc p => acc.insert p.1 p.2) t) = toList t ++ ps := by
  induction ps generalizing t with
  | nil => simp
  | cons p tl ih =>
    simp only [List.foldl_cons]
    have hmax : AllKeys (· < p.1) t := by
      rw [allKeys_iff_toList]
      intro x hx
      rw [List.map_append, List.pairwise_append] at h
      exact h.2.2 x.1 (List.mem_map_of_mem Prod.fst hx)
        p.1 (by simp)
    have ht2 : toList (t.insert p.1 p.2) = toList t ++ [p] := by
      rw [toList_insert_max t p.1 p.2 hmax]
    rw [ih (t.insert p.1 p.2) (by rw [ht2, List.append_assoc]; simpa using h),
      ht2, List.append_assoc]
    rfl

end Tree

/-- Modelled from the spec: `src/priority_queue.py` is not in the source
tree.  Spec §4.3 (`TriageQueue`): `enqueue(priority, payload)`; `dequeue`
removes and returns the highest-priority element, FIFO among equal
priorities; `to_list` exports the entries in an order that reconstructs the
same queue when re-enqueued.  We model the queue by its entries in
insertion order: `dequeue` extracts the earliest entry of maximal priority
and `to_list` is the insertion order itself. -/
structure PriorityQueue where
  entries : List (Int × String)
deriving DecidableEq

namespace PriorityQueue

def empty : PriorityQueue := ⟨[]⟩

def enqueue (q : PriorityQueue) (priority : Int) (payload : String) :
    PriorityQueue :=
  ⟨q.entries ++ [(priority, payload)]⟩

def to_list (q : PriorityQueue) : List (Int × String) := q.entries

/-- Extract the earliest entry of maximal priority. -/
def popMax : List (Int × String) → Option ((Int × String) × List (Int × String))
  | [] => none
  | x :: tl =>
    match popMax tl with
    | none => some (x, [])
    | some (m, rest) => if x.1 < m.1 then some (m, x :: rest) else some (x, tl)

def dequeue (q : PriorityQueue) : Option ((Int × String) × PriorityQueue) :=
  (popMax q.entries).map (fun p => (p.1, ⟨p.2⟩))

def drainAux : Nat → List (Int × String) → List (Int × String)
  | 0, _ => []
  | fuel + 1, l =>
    match popMax l with
    | none => []
    | some (m, rest) => m :: drainAux fuel rest

/-- The full dequeue order of the queue. -/
def drain (q : PriorityQueue) : List (Int × String) :=
  drainAux q.entries.length q.entries

theorem foldl_enqueue (l : List (Int × String)) (acc : List (Int × String)) :
    l.foldl (fun q e => q.enqueue e.1 e.2) (PriorityQueue.mk acc) =
      PriorityQueue.mk (acc ++ l) := by
  induction l generalizing acc with
  | nil => simp
  | cons e tl ih =>
    simp only [List.foldl_cons]
    have he : (PriorityQueue.mk acc).enqueue e.1 e.2 =
        PriorityQueue.mk (acc ++ [(e.1, e.2)]) := rfl
    rw [he, ih]
    simp

end PriorityQueue

/-- Modelled from the spec: the serialized patient record of §6 (an entry
of the `patients` list of the structured file). -/
structure PatientDict where
  patient_id : String
  name : String
  age : Int
  gender : String
  phone : String
  medical_notes : String
  visit_history : List String
deriving DecidableEq

/-- Modelled from the spec: `Patient.to_dict` of the missing
`src/patient.py`, per the §6 record shape. -/
def Patient.to_dict (p : Patient) : PatientDict :=
  ⟨p.patient_id, p.name, p.age, p.gender, p.phone, p.medical_notes, p.visits⟩

/-- Modelled from the spec: `Patient.from_dict` of the missing
`src/patient.py`. -/
def Patient.from_dict (d : PatientDict) : Patient :=
  ⟨d.patient_id, d.name, d.age, d.gender, d.phone, d.medical_notes,
   d.visit_history⟩

/-- An entry of the `appointments` list of the structured file
(`src/storage.py` lines 145-156). -/
structure ApptRecord where
  key : Int
  code : Option String
  patient_id : String
  datetime : Int
deriving DecidableEq

/-- The structured state file `records.json` (`src/storage.py`,
spec §6). -/
structure SavedState where
  patients : List PatientDict
  triage : List (Int × String)
  appointments : List ApptRecord
  appt_seq : Int
deriving DecidableEq

/-- Stable insertion sort, modelling Python's `list.sort`. -/
def insortBy {β : Type} (le : β → β → Bool) (x : β) : List β → List β
  | [] => [x]
  | y :: tl => if le x y then x :: y :: tl else y :: insortBy le x tl

/-- Stable sort, modelling Python's `list.sort`. -/
def sortBy {β : Type} (le : β → β → Bool) (l : List β) : List β :=
  l.foldr (insortBy le) []

theorem insortBy_perm {β : Type} (le : β → β → Bool) (x : β) (l : List β) :
    List.Perm (insortBy le x l) (x :: l) := by
  induction l with
  | nil => rfl
  | cons y tl ih =>
    unfold insortBy
    by_cases h : le x y
    · simp [h]
    · simp only [h, Bool.false_eq_true, if_false]
      exact (ih.cons y).trans (List.Perm.swap x y tl)

theorem sortBy_perm {β : Type} (le : β → β → Bool) (l : List β) :
    List.Perm (sortBy le l) l := by
  induction l with
  | nil => rfl
  | cons x tl ih =>
    simp only [sortBy, List.foldr_cons]
    exact (insortBy_perm le x _).trans (ih.cons x)

/-- `save_state` from `src/storage.py` (lines 123-165): build the `data`
record — patient dicts sorted by `patient_id`, the triage `to_list`, one
record per in-order schedule item, and the counter. -/
def save_state (registry : HashTable Patient) (triage : PriorityQueue)
    (schedule : Tree Appointment) (appt_seq : Int) : SavedState :=
  { patients := sortBy (fun a b => a.patient_id ≤ b.patient_id)
      (registry.items.map (fun kv => kv.2.to_dict))
    triage := triage.to_list
    appointments := schedule.toList.map
      (fun ka => ⟨ka.1, ka.2.code, ka.2.patient_id, ka.2.minutes⟩)
    appt_seq := appt_seq }

/-- The CSV row `_save_csv_patients` writes for one patient
(`src/storage.py` lines 168-189). -/
def patientCsvRow (p : Patient) : CsvRow :=
  ⟨some p.patient_id, some p.name, some (toString p.age), some p.gender,
   some p.phone, some p.medical_notes⟩

/-- `_save_csv_patients` from `src/storage.py`: one identity row per
registry entry, sorted by key. -/
def save_csv_rows (registry : HashTable Patient) : List CsvRow :=
  (sortBy (fun a b => a.1 ≤ b.1) registry.items).map
    (fun kv => patientCsvRow kv.2)

/-- `load_state` from `src/storage.py` (lines 67-120).  `file = none`
stands for a missing or unparseable `records.json` (`raw = {}` in the
source); `csv` holds the parsed rows of `records.csv` (`none` when that
file is missing or unreadable). -/
def load_state (file : Option SavedState) (csv : Option (List CsvRow)) :
    HashTable Patient × PriorityQueue × Tree Appointment × Int × Nat :=
  let registry0 : HashTable Patient :=
    match file with
    | none => HashTable.empty
    | some data => data.patients.foldl
        (fun t d => t.put (Patient.from_dict d).patient_id (Patient.from_dict d))
        HashTable.empty
  let triage : PriorityQueue :=
    match file with
    | none => PriorityQueue.empty
    | some data => data.triage.foldl
        (fun q e => q.enqueue e.1 e.2) PriorityQueue.empty
  let schedule : Tree Appointment :=
    match file with
    | none => Tree.leaf
    | some data => data.appointments.foldl
        (fun t a => t.insert a.key ⟨a.patient_id, a.datetime, a.code⟩)
        Tree.leaf
  let appt_seq : Int :=
    match file with
    | none => 0
    | some data => if 0 ≤ data.appt_seq then data.appt_seq else 0
  let imported := csv_import registry0 (load_csv_patients csv)
  (imported.1, triage, schedule, appt_seq, imported.2)

/-- Counterexample to C5 as stated: with a corrupt structured file
(`raw = {}`) but a readable `records.csv` holding one valid row, the
registry returned by `load_state` is not empty — the CSV patient is
imported. -/
theorem load_state_corrupt_csv_counterexample :
    (load_state none (some [⟨some "P2", some "Bob", some "41", some "M",
        some "556", some ""⟩])).1.get "P2" =
      some ⟨"P2", "Bob", 41, "M", "556", "", []⟩ ∧
    (load_state none (some [⟨some "P2", some "Bob", some "41", some "M",
        some "556", some ""⟩])).1 ≠ HashTable.empty := by
  constructor
  · decide
  · decide

/-- C5 (amended): when the structured state file is unreadable or corrupt,
`load_state` falls back to the empty initial state for the triage queue,
the schedule tree and the sequence counter, and starts the registry empty;
the returned registry then holds exactly the patients imported from the
secondary CSV file — in particular it is empty when that file is also
missing or unreadable. -/
theorem load_state_corrupt_fallback (csv : Option (List CsvRow)) :
    (load_state none csv).2.1 = PriorityQueue.empty ∧
    (load_state none csv).2.2.1 = Tree.leaf ∧
    (load_state none csv).2.2.2.1 = 0 ∧
    (load_state none csv).1 =
      (csv_import HashTable.empty (load_csv_patients csv)).1 ∧
    (csv = none → (load_state none csv).1 = HashTable.empty) := by
  refine ⟨rfl, rfl, rfl, rfl, ?_⟩
  intro h
  subst h
  rfl

/-- Witness for the amended C5 at the concrete input where both files are
unreadable. -/
theorem load_state_corrupt_fallback_witness :
    (load_state none none).2.1 = PriorityQueue.empty ∧
    (load_state none none).1 = HashTable.empty :=
  ⟨(load_state_corrupt_fallback none).1,
   (load_state_corrupt_fallback none).2.2.2.2 rfl⟩

/-- How the write of `save_state` (`src/storage.py` lines 158-163) can
end.  The file is opened with mode `"w"`, which truncates it before
`json.dump` runs: when the `open` itself raises, the previous content
survives; when the dump (or the write behind it) raises, the truncation has
already happened, so the previous content is destroyed and the file is left
with whatever partial content reached the disk — content the function does
not control, carried here as an arbitrary parameter (`none` standing for an
unparseable partial file). -/
inductive WriteResult where
  | success
  | openFailed
  | dumpFailed (partialFile : Option SavedState)
deriving DecidableEq

/-- The write stage of `save_state` (`src/storage.py` lines 158-163): the
function only reads the in-memory structures, so they are returned
unchanged; on success the file holds the serialized state; when `open`
fails the previous file content stays, and when the dump fails the file is
left with the uncontrolled partial content.  In every case no message is
printed — the exception handler is `except Exception: pass`, with the
source comment "Surface errors is noisy for CLI; best-effort only." -/
def save_state_run (registry : HashTable Patient) (triage : PriorityQueue)
    (schedule : Tree Appointment) (appt_seq : Int)
    (oldFile : Option SavedState) (outcome : WriteResult) :
    (HashTable Patient × PriorityQueue × Tree Appointment × Int) ×
      Option SavedState × List String :=
  ((registry, triage, schedule, appt_seq),
   (match outcome with
    | WriteResult.success => some (save_state registry triage schedule appt_seq)
    | WriteResult.openFailed => oldFile
    | WriteResult.dumpFailed partialFile => partialFile),
   [])

/-- Counterexample to C7 as stated: at a concrete state whose write fails
mid-dump, `save_state` emits no report at all — the message list of the run
is empty, so the failure is not "reported/logged to the operator" (and the
previously persisted content is gone, replaced by the unparseable partial
file). -/
theorem save_state_write_failure_counterexample :
    (save_state_run (HashTable.empty.put "P1" samplePatient)
      PriorityQueue.empty Tree.leaf 0
      (some (save_state HashTable.empty PriorityQueue.empty Tree.leaf 0))
      (WriteResult.dumpFailed none)).2.2 = [] ∧
    ¬ (save_state_run (HashTable.empty.put "P1" samplePatient)
      PriorityQueue.empty Tree.leaf 0
      (some (save_state HashTable.empty PriorityQueue.empty Tree.leaf 0))
      (WriteResult.dumpFailed none)).2.2 ≠ [] ∧
    ¬ (save_state_run (HashTable.empty.put "P1" samplePatient)
      PriorityQueue.empty Tree.leaf 0
      (some (save_state HashTable.empty PriorityQueue.empty Tree.leaf 0))
      (WriteResult.dumpFailed none)).2.1 =
      some (save_state HashTable.empty PriorityQueue.empty Tree.leaf 0) := by
  exact ⟨rfl, fun h => h rfl, fun h => Option.noConfusion h⟩

/-- C7 (amended): when the state-file write fails, the in-memory structures
are left unchanged and remain authoritative for the rest of the session,
and the failure is swallowed silently (no message is printed), as the
source comments document deliberately.  The previously persisted content
survives only when the `open` itself fails; a failure during the dump comes
after `open("w")` has already truncated the file, so the old content is
destroyed and the file is left with the uncontrolled partial content. -/
theorem save_state_write_failure_silent (registry : HashTable Patient)
    (triage : PriorityQueue) (schedule : Tree Appointment) (appt_seq : Int)
    (oldFile partialFile : Option SavedState) :
    ((save_state_run registry triage schedule appt_seq oldFile
        WriteResult.openFailed).1 = (registry, triage, schedule, appt_seq) ∧
      (save_state_run registry triage schedule appt_seq oldFile
        WriteResult.openFailed).2.1 = oldFile ∧
      (save_state_run registry triage schedule appt_seq oldFile
        WriteResult.openFailed).2.2 = []) ∧
    ((save_state_run registry triage schedule appt_seq oldFile
        (WriteResult.dumpFailed partialFile)).1 =
        (registry, triage, schedule, appt_seq) ∧
      (save_state_run registry triage schedule appt_seq oldFile
        (WriteResult.dumpFailed partialFile)).2.1 = partialFile ∧
      (save_state_run registry triage schedule appt_seq oldFile
        (WriteResult.dumpFailed partialFile)).2.2 = []) :=
  ⟨⟨rfl, rfl, rfl⟩, ⟨rfl, rfl, rfl⟩⟩

theorem putEntries_append_of_absent {κ β : Type} [DecidableEq κ]
    (l : List (κ × β)) (k : κ) (v : β) (h : getEntries l k = none) :
    putEntries l k v = l ++ [(k, v)] := by
  induction l with
  | nil => rfl
  | cons p tl ih =>
    simp only [getEntries] at h
    by_cases hp : p.1 = k
    · rw [if_pos hp] at h
      exact Option.noConfusion h
    · rw [if_neg hp] at h
      simp only [putEntries, if_neg hp, ih h, List.cons_append]

theorem getEntries_eq_some_iff_mem {κ β : Type} [DecidableEq κ]
    (l : List (κ × β)) (k : κ) (v : β) (hnd : (l.map Prod.fst).Nodup) :
    getEntries l k = some v ↔ (k, v) ∈ l := by
  induction l with
  | nil => simp [getEntries]
  | cons p tl ih =>
    simp only [List.map_cons, List.nodup_cons] at hnd
    by_cases hp : p.1 = k
    · simp only [getEntries, if_pos hp, Option.some.injEq, List.mem_cons]
      constructor
      · intro h
        left
        rw [← h, ← hp]
      · rintro (h | h)
        · rw [← h]
        · exact absurd (hp ▸ List.mem_map_of_mem Prod.fst h) hnd.1
    · simp only [getEntries, if_neg hp, List.mem_cons, ih hnd.2]
      constructor
      · exact Or.inr
      · rintro (h | h)
        · exact absurd (congrArg Prod.fst h).symm hp
        · exact h

theorem getEntries_perm {κ β : Type} [DecidableEq κ]
    (l1 l2 : List (κ × β)) (hp : List.Perm l1 l2)
    (hnd : (l1.map Prod.fst).Nodup) (k : κ) :
    getEntries l1 k = getEntries l2 k := by
  have hnd2 : (l2.map Prod.fst).Nodup := (hp.map Prod.fst).nodup_iff.mp hnd
  cases hg : getEntries l1 k with
  | some v =>
    have hm := (getEntries_eq_some_iff_mem l1 k v hnd).mp hg
    exact ((getEntries_eq_some_iff_mem l2 k v hnd2).mpr (hp.mem_iff.mp hm)).symm
  | none =>
    have hnm : k ∉ l2.map Prod.fst := by
      intro hmem
      have := HashTable.getEntries_isSome_of_mem l2 k hmem
      obtain ⟨v, hv⟩ := Option.isSome_iff_exists.mp this
      have hm := (getEntries_eq_some_iff_mem l2 k v hnd2).mp hv
      have hm1 := hp.mem_iff.mpr hm
      have := HashTable.getEntries_isSome_of_mem l1 k
        (List.mem_map_of_mem Prod.fst hm1)
      rw [hg] at this
      exact Bool.noConfusion this
    exact (HashTable.getEntries_eq_none_of_not_mem l2 k hnm).symm

theorem foldl_put_entries (qs : List Patient) (t : HashTable Patient)
    (habs : ∀ p ∈ qs, t.get p.patient_id = none)
    (hnd : (qs.map Patient.patient_id).Nodup) :
    (qs.foldl (fun t p => t.put p.patient_id p) t).entries =
      t.entries ++ qs.map (fun p => (p.patient_id, p)) := by
  induction qs generalizing t with
  | nil => simp
  | cons p tl ih =>
    simp only [List.map_cons, List.nodup_cons] at hnd
    simp only [List.foldl_cons]
    have h1 : (t.put p.patient_id p).entries = t.entries ++ [(p.patient_id, p)] :=
      putEntries_append_of_absent t.entries p.patient_id p
        (habs p (List.mem_cons_self p tl))
    have habs2 : ∀ q ∈ tl, (t.put p.patient_id p).get q.patient_id = none := by
      intro q hq
      have hne : q.patient_id ≠ p.patient_id := by
        intro he
        exact hnd.1 (he ▸ List.mem_map_of_mem Patient.patient_id hq)
      rw [HashTable.get_put_ne t p.patient_id q.patient_id p hne]
      exact habs q (List.mem_cons_of_mem p hq)
    rw [ih (t.put p.patient_id p) habs2 hnd.2, h1, List.append_assoc]
    rfl

theorem csv_fold_id (ps : List Patient) (r : HashTable Patient) (n : Nat)
    (h : ∀ p ∈ ps, r.contains p.patient_id = true) :
    ps.foldl csvStep (r, n) = (r, n) := by
  induction ps with
  | nil => rfl
  | cons p tl ih =>
    simp only [List.foldl_cons, csvStep, h p (List.mem_cons_self p tl), if_true]
    exact ih (fun q hq => h q (List.mem_cons_of_mem p hq))

theorem row_to_patient_id (p q : Patient)
    (h : row_to_patient (patientCsvRow p) = some q) :
    q.patient_id = pyStrip p.patient_id := by
  unfold row_to_patient patientCsvRow at h
  simp only [Option.getD_some] at h
  split at h
  · exact Option.noConfusion h
  · split at h
    · exact Option.noConfusion h
    · split at h
      · injection h with h2
        rw [← h2]
      · exact Option.noConfusion h

theorem map_pair_eq_self (l : List (String × Patient))
    (hco : ∀ kv ∈ l, kv.2.patient_id = kv.1) :
    l.map (fun kv => (kv.2.patient_id, kv.2)) = l := by
  induction l with
  | nil => rfl
  | cons kv tl ih =>
    simp only [List.map_cons]
    rw [hco kv (List.mem_cons_self kv tl), ih
      (fun x hx => hco x (List.mem_cons_of_mem kv hx))]

theorem load_state_registry_eq (data : SavedState) (csv : Option (List CsvRow)) :
    (load_state (some data) csv).1 =
      (csv_import
        (data.patients.foldl
          (fun t d => t.put (Patient.from_dict d).patient_id (Patient.from_dict d))
          HashTable.empty)
        (load_csv_patients csv)).1 := rfl

theorem load_state_triage_eq (data : SavedState) (csv : Option (List CsvRow)) :
    (load_state (some data) csv).2.1 =
      data.triage.foldl (fun q e => q.enqueue e.1 e.2) PriorityQueue.empty := rfl

theorem load_state_schedule_eq (data : SavedState) (csv : Option (List CsvRow)) :
    (load_state (some data) csv).2.2.1 =
      data.appointments.foldl
        (fun t a => t.insert a.key ⟨a.patient_id, a.datetime, a.code⟩)
        Tree.leaf := rfl

theorem load_state_seq_eq (data : SavedState) (csv : Option (List CsvRow)) :
    (load_state (some data) csv).2.2.2.1 =
      (if 0 ≤ data.appt_seq then data.appt_seq else 0) := rfl

theorem round_trip_registry_get (registry : HashTable Patient)
    (hwf : registry.Wf)
    (hco : ∀ kv ∈ registry.entries, kv.2.patient_id = kv.1)
    (ds : List PatientDict)
    (hds : List.Perm ds (registry.entries.map (fun kv => kv.2.to_dict)))
    (k : String) :
    (ds.foldl
      (fun t d => t.put (Patient.from_dict d).patient_id (Patient.from_dict d))
      HashTable.empty).get k = registry.get k := by
  have h1 : ds.foldl
      (fun t d => t.put (Patient.from_dict d).patient_id (Patient.from_dict d))
      HashTable.empty =
      (ds.map Patient.from_dict).foldl
        (fun t p => t.put p.patient_id p) HashTable.empty := by
    rw [List.foldl_map]
  have hqs : List.Perm (ds.map Patient.from_dict)
      (registry.entries.map (fun kv => kv.2)) := by
    have h3 := hds.map Patient.from_dict
    rw [List.map_map] at h3
    exact h3
  have hkeys : (registry.entries.map (fun kv => kv.2)).map Patient.patient_id =
      registry.entries.map Prod.fst := by
    rw [List.map_map]
    exact List.map_congr_left (fun kv hkv => hco kv hkv)
  have hids : ((ds.map Patient.from_dict).map Patient.patient_id).Nodup := by
    rw [List.Perm.nodup_iff (hqs.map Patient.patient_id), hkeys]
    exact hwf
  have habs : ∀ p ∈ ds.map Patient.from_dict,
      (HashTable.empty : HashTable Patient).get p.patient_id = none :=
    fun p _ => rfl
  rw [h1]
  show getEntries ((ds.map Patient.from_dict).foldl
    (fun t p => t.put p.patient_id p) HashTable.empty).entries k = _
  rw [foldl_put_entries (ds.map Patient.from_dict) HashTable.empty habs hids]
  have hpairs : ((ds.map Patient.from_dict).map
      (fun p => (p.patient_id, p))).map Prod.fst =
      (ds.map Patient.from_dict).map Patient.patient_id := by
    rw [List.map_map]
    rfl
  have hperm2 : List.Perm
      ((ds.map Patient.from_dict).map (fun p => (p.patient_id, p)))
      registry.entries := by
    have h5 := hqs.map (fun p : Patient => (p.patient_id, p))
    rw [List.map_map, List.map_map] at h5
    have h6 : registry.entries.map
        ((fun p : Patient => (p.patient_id, p)) ∘ (fun kv => kv.2)) =
        registry.entries := map_pair_eq_self registry.entries hco
    rw [h6] at h5
    rw [List.map_map]
    exact h5
  have hnd3 : (((ds.map Patient.from_dict).map
      (fun p => (p.patient_id, p))).map Prod.fst).Nodup := by
    rw [hpairs]
    exact hids
  show getEntries ((HashTable.empty : HashTable Patient).entries ++
    (ds.map Patient.from_dict).map (fun p => (p.patient_id, p))) k = _
  show getEntries ((ds.map Patient.from_dict).map (fun p => (p.patient_id, p))) k = _
  rw [getEntries_perm _ registry.entries hperm2 hnd3 k]
  rfl

theorem round_trip_csv_noop (r0 registry : HashTable Patient)
    (hco : ∀ kv ∈ registry.entries, kv.2.patient_id = kv.1)
    (htrim : ∀ kv ∈ registry.entries, pyStrip kv.2.patient_id = kv.2.patient_id)
    (hget : ∀ k, r0.get k = registry.get k) (n : Nat) :
    (load_csv_patients (some (save_csv_rows registry))).foldl csvStep (r0, n) =
      (r0, n) := by
  apply csv_fold_id
  intro q hq
  simp only [load_csv_patients] at hq
  obtain ⟨row, hrow, hparse⟩ := List.mem_filterMap.mp hq
  simp only [save_csv_rows] at hrow
  obtain ⟨kv, hkv, hkvrow⟩ := List.mem_map.mp hrow
  have hkv2 : kv ∈ registry.entries := (sortBy_perm _ _).mem_iff.mp hkv
  rw [← hkvrow] at hparse
  have hid := row_to_patient_id kv.2 q hparse
  rw [htrim kv hkv2] at hid
  rw [hid, hco kv hkv2]
  show ((r0.get kv.1).isSome) = true
  rw [hget kv.1]
  exact HashTable.getEntries_isSome_of_mem registry.entries kv.1
    (List.mem_map_of_mem Prod.fst hkv2)

/-- C1: saving the full state and reloading it reproduces an equivalent
state — the registry maps the same keys to the same records, the triage
queue is reproduced exactly (hence the same dequeue order), the schedule
tree yields the same in-order sequence (hence the same keys and
appointments), and the sequence counter is restored.  Stated for the
reachable in-memory states: unique registry keys, records keyed by their
own stripped `patient_id`, an ordered schedule tree, and a non-negative
counter. -/
theorem save_load_round_trip (registry : HashTable Patient)
    (triage : PriorityQueue) (schedule : Tree Appointment) (appt_seq : Int)
    (hwf : registry.Wf)
    (hco : ∀ kv ∈ registry.entries, kv.2.patient_id = kv.1)
    (htrim : ∀ kv ∈ registry.entries, pyStrip kv.2.patient_id = kv.2.patient_id)
    (hord : schedule.Ordered) (hseq : 0 ≤ appt_seq) :
    (∀ k, (load_state (some (save_state registry triage schedule appt_seq))
        (some (save_csv_rows registry))).1.get k = registry.get k) ∧
    (load_state (some (save_state registry triage schedule appt_seq))
        (some (save_csv_rows registry))).2.1 = triage ∧
    (load_state (some (save_state registry triage schedule appt_seq))
        (some (save_csv_rows registry))).2.1.drain = triage.drain ∧
    (load_state (some (save_state registry triage schedule appt_seq))
        (some (save_csv_rows registry))).2.2.1.toList = schedule.toList ∧
    (load_state (some (save_state registry triage schedule appt_seq))
        (some (save_csv_rows registry))).2.2.2.1 = appt_seq := by
  have hreg0 : ∀ k,
      ((save_state registry triage schedule appt_seq).patients.foldl
        (fun t d => t.put (Patient.from_dict d).patient_id (Patient.from_dict d))
        HashTable.empty).get k = registry.get k := by
    intro k
    apply round_trip_registry_get registry hwf hco _ _ k
    exact sortBy_perm _ _
  have htri : (load_state (some (save_state registry triage schedule appt_seq))
      (some (save_csv_rows registry))).2.1 = triage := by
    rw [load_state_triage_eq]
    exact PriorityQueue.foldl_enqueue triage.entries []
  refine ⟨?_, htri, ?_, ?_, ?_⟩
  · intro k
    rw [load_state_registry_eq]
    show ((load_csv_patients (some (save_csv_rows registry))).foldl csvStep
      (_, 0)).1.get k = _
    rw [round_trip_csv_noop _ registry hco htrim hreg0 0]
    exact hreg0 k
  · rw [htri]
  · rw [load_state_schedule_eq]
    have happ : (save_state registry triage schedule appt_seq).appointments =
        schedule.toList.map
          (fun ka => (⟨ka.1, ka.2.code, ka.2.patient_id, ka.2.minutes⟩ :
            ApptRecord)) := rfl
    rw [happ, List.foldl_map]
    exact Tree.foldl_insert_sorted schedule.toList Tree.leaf
      (Tree.pairwise_keys_toList schedule hord)
  · rw [load_state_seq_eq]
    show (if 0 ≤ appt_seq then appt_seq else 0) = appt_seq
    rw [if_pos hseq]

/-- Witness for C1 at a small concrete state. -/
theorem save_load_round_trip_witness :
    (load_state (some (save_state (HashTable.empty.put "P1" samplePatient)
        (PriorityQueue.mk [(5, "EMERGENCY")])
        (Tree.leaf.insert 2000 ⟨"P1", 2, some "00000"⟩) 3))
      (some (save_csv_rows (HashTable.empty.put "P1" samplePatient)))).2.2.2.1
      = 3 ∧
    (load_state (some (save_state (HashTable.empty.put "P1" samplePatient)
        (PriorityQueue.mk [(5, "EMERGENCY")])
        (Tree.leaf.insert 2000 ⟨"P1", 2, some "00000"⟩) 3))
      (some (save_csv_rows (HashTable.empty.put "P1" samplePatient)))).1.get "P1"
      = (HashTable.empty.put "P1" samplePatient).get "P1" :=
  ⟨(save_load_round_trip (HashTable.empty.put "P1" samplePatient)
      (PriorityQueue.mk [(5, "EMERGENCY")])
      (Tree.leaf.insert 2000 ⟨"P1", 2, some "00000"⟩) 3
      (show (((HashTable.empty.put "P1" samplePatient).entries.map
        Prod.fst).Nodup) by decide) (by decide) (by decide)
      ⟨trivial, trivial, trivial, trivial⟩ (by decide)).2.2.2.2,
   (save_load_round_trip (HashTable.empty.put "P1" samplePatient)
      (PriorityQueue.mk [(5, "EMERGENCY")])
      (Tree.leaf.insert 2000 ⟨"P1", 2, some "00000"⟩) 3
      (show (((HashTable.empty.put "P1" samplePatient).entries.map
        Prod.fst).Nodup) by decide) (by decide) (by decide)
      ⟨trivial, trivial, trivial, trivial⟩ (by decide)).1 "P1"⟩

/-- The in-memory session state of `main()`: the four structures, the
derived code index, and the appointment sequence counter. -/
structure AppState where
  registry : HashTable Patient
  triage : PriorityQueue
  schedule : Tree Appointment
  code_index : HashTable Int
  appt_seq : Int
deriving DecidableEq

/-- Menu option 7 of `main.py` (lines 197-218): look the patient up, build
the appointment with a freshly generated code, compute the sort key
`minutes * 1000 + appt_seq`, bump the counter, insert into the schedule,
index the code, and log a visit entry.  Returns the new state and, on
success, the created `(key, code)` pair. -/
def scheduleOp (st : AppState) (pid : String) (minutes : Int) :
    AppState × Option (Int × String) :=
  match st.registry.get pid with
  | none => (st, none)
  | some p =>
    let code := generate_appt_code st.appt_seq
    let appt : Appointment := ⟨pid, minutes, some code⟩
    let global_key := minutes * 1000 + st.appt_seq
    ({ st with
        registry := st.registry.put pid
          (p.add_visit ("APPT SCHEDULED " ++ code))
        schedule := st.schedule.insert global_key appt
        code_index := st.code_index.put code global_key
        appt_seq := st.appt_seq + 1 },
     some (global_key, code))

/-- Menu option 8 of `main.py` (lines 220-243): resolve the code through
the index, look the appointment up, delete it from the schedule, drop the
index entry, and log a visit entry.  A dangling index entry (code present,
key absent from the tree) is dropped. -/
def cancelOp (st : AppState) (code : String) : AppState × Bool :=
  match st.code_index.get code with
  | none => (st, false)
  | some key =>
    match st.schedule.find key with
    | none => ({ st with code_index := st.code_index.remove code }, false)
    | some appt =>
      ({ st with
          schedule := st.schedule.delete key
          code_index := st.code_index.remove code
          registry :=
            match st.registry.get appt.patient_id with
            | none => st.registry
            | some p => st.registry.put appt.patient_id
                (p.add_visit ("APPT CANCELED " ++ code)) },
       true)

/-- Menu option 9 of `main.py` (lines 245-276): resolve the code, delete
the old key, build a new appointment carrying the same code, insert it
under the new key `new_minutes * 1000 + appt_seq`, bump the counter, remap
the code, and log a visit entry. -/
def rescheduleOp (st : AppState) (code : String) (newMinutes : Int) :
    AppState × Bool :=
  match st.code_index.get code with
  | none => (st, false)
  | some old_key =>
    match st.schedule.find old_key with
    | none => ({ st with code_index := st.code_index.remove code }, false)
    | some appt =>
      let new_appt : Appointment := ⟨appt.patient_id, newMinutes, some code⟩
      let new_key := newMinutes * 1000 + st.appt_seq
      ({ st with
          schedule := (st.schedule.delete old_key).insert new_key new_appt
          code_index := st.code_index.put code new_key
          appt_seq := st.appt_seq + 1
          registry :=
            match st.registry.get appt.patient_id with
            | none => st.registry
            | some p => st.registry.put appt.patient_id
                (p.add_visit ("APPT RESCHEDULED " ++ code)) },
       true)

/-- `rebuild_code_index` from `main.py` (lines 93-107), written as a
structural in-order walk: appointments whose code is missing (`None` or
`""`, both falsy in the source's `if not code:`) receive a freshly
generated code and bump the counter; every (code, key) pair is `put` into
the index in in-order sequence.  Returns the updated tree, the index, the
counter, and the `needs_save` flag. -/
def rebuild_go : Tree Appointment → HashTable Int → Int →
    Tree Appointment × HashTable Int × Int × Bool
  | Tree.leaf, idx, seq => (Tree.leaf, idx, seq, false)
  | Tree.node l k a r, idx, seq =>
    let resL := rebuild_go l idx seq
    let step :=
      match a.code with
      | some c =>
        if c = "" then
          ((⟨a.patient_id, a.minutes,
            some (generate_appt_code resL.2.2.1)⟩ : Appointment),
           resL.2.2.1 + 1, true)
        else (a, resL.2.2.1, false)
      | none =>
        ((⟨a.patient_id, a.minutes,
          some (generate_appt_code resL.2.2.1)⟩ : Appointment),
         resL.2.2.1 + 1, true)
    let idx2 := resL.2.1.put (step.1.code.getD "") k
    let resR := rebuild_go r idx2 step.2.1
    (Tree.node resL.1 k step.1 resR.1, resR.2.1, resR.2.2.1,
     (resL.2.2.2 || step.2.2) || resR.2.2.2)

/-- The whole `rebuild_code_index` call at startup. -/
def rebuild_code_index (schedule : Tree Appointment) (appt_seq : Int) :
    Tree Appointment × HashTable Int × Int × Bool :=
  rebuild_go schedule HashTable.empty appt_seq

theorem scheduleOp_success (st : AppState) (pid : String) (minutes : Int)
    (p : Patient) (h : st.registry.get pid = some p) :
    (scheduleOp st pid minutes).2 =
      some (minutes * 1000 + st.appt_seq, generate_appt_code st.appt_seq) ∧
    (scheduleOp st pid minutes).1.appt_seq = st.appt_seq + 1 ∧
    ((scheduleOp st pid minutes).1.registry.get pid).isSome = true := by
  refine ⟨?_, ?_, ?_⟩
  · simp [scheduleOp, h]
  · simp [scheduleOp, h]
  · simp [scheduleOp, h, HashTable.get_put_self]

/-- Iterate the schedule operation (same patient, same minute input). -/
def iterSchedule (st : AppState) (pid : String) (minutes : Int) :
    Nat → AppState
  | 0 => st
  | n + 1 => (scheduleOp (iterSchedule st pid minutes n) pid minutes).1

theorem iterSchedule_seq (st : AppState) (pid : String) (m : Int) (n : Nat)
    (h : (st.registry.get pid).isSome = true) :
    ((iterSchedule st pid m n).registry.get pid).isSome = true ∧
    (iterSchedule st pid m n).appt_seq = st.appt_seq + n := by
  induction n with
  | zero => exact ⟨h, by simp [iterSchedule]⟩
  | succ n ih =>
    obtain ⟨hp, hs⟩ := ih
    obtain ⟨p, hp2⟩ := Option.isSome_iff_exists.mp hp
    obtain ⟨_, hseq, hpres⟩ :=
      scheduleOp_success (iterSchedule st pid m n) pid m p hp2
    refine ⟨hpres, ?_⟩
    show (scheduleOp (iterSchedule st pid m n) pid m).1.appt_seq = _
    rw [hseq, hs]
    omega

/-- The initial session state of the counterexample run: one registered
patient, nothing scheduled, counter 0. -/
def ceState0 : AppState :=
  ⟨HashTable.empty.put "P1" samplePatient, PriorityQueue.empty, Tree.leaf,
   HashTable.empty, 0⟩

/-- The state after the first scheduling (minute 2, key 2000) followed by
999 further schedulings at minute 0; its counter is 1000. -/
def ceState1000 : AppState :=
  iterSchedule (scheduleOp ceState0 "P1" 2).1 "P1" 0 999

/-- Counterexample to C2 as stated: in one session run, the 1st and the
1001st appointment creations — distinct creations, with distinct sequence
numbers 0 and 1000 and distinct codes — receive the same sort key 2000
(minute 2 at counter 0, and minute 1 at counter 1000). -/
theorem schedule_sort_key_collision :
    (scheduleOp ceState0 "P1" 2).2 = some (2000, generate_appt_code 0) ∧
    (scheduleOp ceState1000 "P1" 1).2 = some (2000, generate_appt_code 1000) ∧
    generate_appt_code 0 ≠ generate_appt_code 1000 := by
  have h0 : ceState0.registry.get "P1" = some samplePatient := by decide
  have hs0 := scheduleOp_success ceState0 "P1" 2 samplePatient h0
  have hpres : (((scheduleOp ceState0 "P1" 2).1.registry.get "P1").isSome) =
      true := hs0.2.2
  have hiter := iterSchedule_seq (scheduleOp ceState0 "P1" 2).1 "P1" 0 999 hpres
  have hseq1000 : ceState1000.appt_seq = 1000 := by
    show (iterSchedule (scheduleOp ceState0 "P1" 2).1 "P1" 0 999).appt_seq = 1000
    rw [hiter.2, hs0.2.1]
    decide
  obtain ⟨p, hp⟩ := Option.isSome_iff_exists.mp hiter.1
  have hs1000 := scheduleOp_success ceState1000 "P1" 1 p hp
  refine ⟨?_, ?_, ?_⟩
  · rw [hs0.1]
    decide
  · rw [hs1000.1, hseq1000]
    norm_num
  · decide

/-- C2 (amended): every sort key created by the scheduling and rescheduling
operations equals `minutes * 1000 + appt_seq` at the moment of creation;
two distinct creations at the same minute always receive distinct keys
(strict ordering within a minute), and creations at arbitrary minutes
receive distinct keys as long as the sequence counter stays below 1000 —
once it reaches 1000, keys of different minutes can collide. -/
theorem schedule_sort_key_spec :
    (∀ (st : AppState) (pid : String) (m : Int) (p : Patient),
      st.registry.get pid = some p →
      (scheduleOp st pid m).2 =
        some (m * 1000 + st.appt_seq, generate_appt_code st.appt_seq)) ∧
    (∀ (st : AppState) (code : String) (nm old_key : Int) (appt : Appointment),
      st.code_index.get code = some old_key →
      st.schedule.find old_key = some appt →
      (rescheduleOp st code nm).1.code_index.get code =
        some (nm * 1000 + st.appt_seq)) ∧
    (∀ m s1 s2 : Int, s1 ≠ s2 → m * 1000 + s1 ≠ m * 1000 + s2) ∧
    (∀ m1 s1 m2 s2 : Int, 0 ≤ s1 → s1 < 1000 → 0 ≤ s2 → s2 < 1000 →
      s1 ≠ s2 → m1 * 1000 + s1 ≠ m2 * 1000 + s2) := by
  refine ⟨?_, ?_, ?_, ?_⟩
  · intro st pid m p h
    simp [scheduleOp, h]
  · intro st code nm old_key appt h1 h2
    simp [rescheduleOp, h1, h2, HashTable.get_put_self]
  · intro m s1 s2 h
    omega
  · intro m1 s1 m2 s2 h1 h2 h3 h4 h5
    omega

/-- Witness for the amended C2 at concrete inputs: a concrete scheduling, a
concrete rescheduling, and a concrete same-minute key pair. -/
theorem schedule_sort_key_spec_witness :
    (scheduleOp ceState0 "P1" 2).2 =
      some (2 * 1000 + ceState0.appt_seq,
        generate_appt_code ceState0.appt_seq) ∧
    (rescheduleOp (AppState.mk HashTable.empty PriorityQueue.empty
        (Tree.leaf.insert 5 ⟨"P1", 0, some "00000"⟩)
        (HashTable.empty.put "00000" 5) 7) "00000" 1).1.code_index.get "00000" =
      some (1 * 1000 + 7) ∧
    (2 : Int) * 1000 + 0 ≠ 2 * 1000 + 5 :=
  ⟨schedule_sort_key_spec.1 ceState0 "P1" 2 samplePatient (by decide),
   schedule_sort_key_spec.2.1 (AppState.mk HashTable.empty PriorityQueue.empty
      (Tree.leaf.insert 5 ⟨"P1", 0, some "00000"⟩)
      (HashTable.empty.put "00000" 5) 7) "00000" 1 5 ⟨"P1", 0, some "00000"⟩
      (by decide) (by decide),
   schedule_sort_key_spec.2.2.1 2 0 5 (by decide)⟩

/-- C9 (amended): a successful reschedule is exactly delete(old key) +
insert(new key): the resulting schedule is literally
`(schedule.delete old_key).insert new_key new_appt` with
`new_key = new_minutes * 1000 + appt_seq`; the new key then holds an
appointment with the same `patient_id` and the same code, the code index
maps the unchanged code to the new key, and the old key is absent from the
schedule provided it differs from the new key (when the new date-time
lands on the old composite key, the new appointment sits under that same
key instead).  The new key is assumed not to collide with another
appointment remaining in the tree. -/
theorem rescheduleOp_delete_insert (st : AppState) (code : String)
    (newMinutes old_key : Int) (appt : Appointment)
    (hord : st.schedule.Ordered)
    (hidx : st.code_index.get code = some old_key)
    (hfind : st.schedule.find old_key = some appt)
    (hfresh : (st.schedule.delete old_key).find
      (newMinutes * 1000 + st.appt_seq) = none) :
    (rescheduleOp st code newMinutes).2 = true ∧
    (rescheduleOp st code newMinutes).1.schedule =
      (st.schedule.delete old_key).insert (newMinutes * 1000 + st.appt_seq)
        ⟨appt.patient_id, newMinutes, some code⟩ ∧
    (rescheduleOp st code newMinutes).1.schedule.find
      (newMinutes * 1000 + st.appt_seq) =
      some ⟨appt.patient_id, newMinutes, some code⟩ ∧
    (rescheduleOp st code newMinutes).1.code_index.get code =
      some (newMinutes * 1000 + st.appt_seq) ∧
    (old_key ≠ newMinutes * 1000 + st.appt_seq →
      (rescheduleOp st code newMinutes).1.schedule.find old_key = none) := by
  have hsch : (rescheduleOp st code newMinutes).1.schedule =
      (st.schedule.delete old_key).insert (newMinutes * 1000 + st.appt_seq)
        ⟨appt.patient_id, newMinutes, some code⟩ := by
    simp [rescheduleOp, hidx, hfind]
  refine ⟨by simp [rescheduleOp, hidx, hfind], hsch, ?_, ?_, ?_⟩
  · rw [hsch]
    exact Tree.find_insert_self _ _ _ hfresh
  · simp [rescheduleOp, hidx, hfind, HashTable.get_put_self]
  · intro hne
    rw [hsch, Tree.find_insert_ne _ _ _ _ hne,
      Tree.find_delete_self st.schedule old_key hord]

/-- Witness for the amended C9 at a concrete state: one appointment under
key 5, rescheduled to minute 1 at counter 7 (new key 1007). -/
theorem rescheduleOp_delete_insert_witness :
    (rescheduleOp (AppState.mk HashTable.empty PriorityQueue.empty
        (Tree.leaf.insert 5 ⟨"P1", 0, some "00000"⟩)
        (HashTable.empty.put "00000" 5) 7) "00000" 1).1.schedule.find
      (1 * 1000 + 7) = some ⟨"P1", 1, some "00000"⟩ ∧
    (rescheduleOp (AppState.mk HashTable.empty PriorityQueue.empty
        (Tree.leaf.insert 5 ⟨"P1", 0, some "00000"⟩)
        (HashTable.empty.put "00000" 5) 7) "00000" 1).1.schedule.find 5 =
      none :=
  ⟨(rescheduleOp_delete_insert (AppState.mk HashTable.empty
      PriorityQueue.empty (Tree.leaf.insert 5 ⟨"P1", 0, some "00000"⟩)
      (HashTable.empty.put "00000" 5) 7) "00000" 1 5 ⟨"P1", 0, some "00000"⟩
      ⟨trivial, trivial, trivial, trivial⟩ (by decide) (by decide)
      (by decide)).2.2.1,
   (rescheduleOp_delete_insert (AppState.mk HashTable.empty
      PriorityQueue.empty (Tree.leaf.insert 5 ⟨"P1", 0, some "00000"⟩)
      (HashTable.empty.put "00000" 5) 7) "00000" 1 5 ⟨"P1", 0, some "00000"⟩
      ⟨trivial, trivial, trivial, trivial⟩ (by decide) (by decide)
      (by decide)).2.2.2.2 (by decide)⟩

/-- A crafted but loadable `records.json`: one appointment with key 2000 at
minute 2, counter already 1000. -/
def ce9File : SavedState := ⟨[], [], [⟨2000, some "AAAAA", "P1", 2⟩], 1000⟩

/-- The session state after loading `ce9File` and rebuilding the code
index, exactly as `main()` starts up. -/
def ce9State : AppState :=
  ⟨(load_state (some ce9File) none).1,
   (load_state (some ce9File) none).2.1,
   (rebuild_code_index (load_state (some ce9File) none).2.2.1
     (load_state (some ce9File) none).2.2.2.1).1,
   (rebuild_code_index (load_state (some ce9File) none).2.2.1
     (load_state (some ce9File) none).2.2.2.1).2.1,
   (rebuild_code_index (load_state (some ce9File) none).2.2.1
     (load_state (some ce9File) none).2.2.2.1).2.2.1⟩

/-- Counterexample to C9 as stated: in the loaded state `ce9State` the
appointment's key is 2000 and the counter is 1000; rescheduling it to
minute 1 computes the new key 1 * 1000 + 1000 = 2000 — the same key — so
after the successful reschedule the old key is still present in the
schedule (holding the new appointment), contradicting "the old key is
absent from the schedule tree". -/
theorem reschedule_same_key_counterexample :
    ce9State.code_index.get "AAAAA" = some 2000 ∧
    ce9State.appt_seq = 1000 ∧
    (rescheduleOp ce9State "AAAAA" 1).2 = true ∧
    (rescheduleOp ce9State "AAAAA" 1).1.schedule.find 2000 =
      some ⟨"P1", 1, some "AAAAA"⟩ := by
  refine ⟨by decide, by decide, by decide, by decide⟩

theorem nodup_keys_toList {α : Type} (t : Tree α) (hord : t.Ordered) :
    ((t.toList.map Prod.fst)).Nodup :=
  (Tree.pairwise_keys_toList t hord).imp (fun h => ne_of_lt h)

theorem mem_toList_iff_find {α : Type} [DecidableEq α] (t : Tree α)
    (hord : t.Ordered) (k : Int) (a : α) :
    (k, a) ∈ t.toList ↔ t.find k = some a := by
  rw [Tree.find_eq_getEntries t hord k,
    getEntries_eq_some_iff_mem t.toList k a (nodup_keys_toList t hord)]

theorem foldl_put_pairs {α : Type} (ps : List (String × α)) (t : HashTable α)
    (habs : ∀ p ∈ ps, t.get p.1 = none)
    (hnd : (ps.map Prod.fst).Nodup) :
    (ps.foldl (fun acc p => acc.put p.1 p.2) t).entries = t.entries ++ ps := by
  induction ps generalizing t with
  | nil => simp
  | cons p tl ih =>
    simp only [List.map_cons, List.nodup_cons] at hnd
    simp only [List.foldl_cons]
    have h1 : (t.put p.1 p.2).entries = t.entries ++ [(p.1, p.2)] :=
      putEntries_append_of_absent t.entries p.1 p.2
        (habs p (List.mem_cons_self p tl))
    have habs2 : ∀ q ∈ tl, (t.put p.1 p.2).get q.1 = none := by
      intro q hq
      have hne : q.1 ≠ p.1 := by
        intro he
        exact hnd.1 (he ▸ List.mem_map_of_mem Prod.fst hq)
      rw [HashTable.get_put_ne t p.1 q.1 p.2 hne]
      exact habs q (List.mem_cons_of_mem p hq)
    rw [ih (t.put p.1 p.2) habs2 hnd.2, h1, List.append_assoc]
    simp

/-- The 1:1 correspondence of C3 between the active schedule and the code
index: every appointment in the tree carries a code that the index maps
back to exactly that appointment's key, and every index entry points at an
appointment carrying that code. -/
def CodeIndexInv (schedule : Tree Appointment) (idx : HashTable Int) : Prop :=
  (∀ k a, schedule.find k = some a →
    ∃ c, a.code = some c ∧ idx.get c = some k) ∧
  (∀ c k, idx.get c = some k →
    ∃ a, schedule.find k = some a ∧ a.code = some c)

/-- Under `CodeIndexInv` the appointment codes are unique across the active
schedule. -/
theorem codes_unique_of_inv (schedule : Tree Appointment)
    (idx : HashTable Int) (hinv : CodeIndexInv schedule idx)
    (k1 k2 : Int) (a1 a2 : Appointment)
    (h1 : schedule.find k1 = some a1) (h2 : schedule.find k2 = some a2)
    (hc : a1.code = a2.code) : k1 = k2 := by
  obtain ⟨c1, hc1, hi1⟩ := hinv.1 k1 a1 h1
  obtain ⟨c2, hc2, hi2⟩ := hinv.1 k2 a2 h2
  rw [hc, hc2] at hc1
  obtain rfl : c2 = c1 := (Option.some.injEq _ _).mp hc1.symm |>.symm
  rw [hi1] at hi2
  exact (Option.some.injEq _ _).mp hi2

theorem rebuild_go_all_coded (t : Tree Appointment) (idx0 : HashTable Int)
    (seq : Int)
    (hc : ∀ p ∈ t.toList, ∃ c, p.2.code = some c ∧ c ≠ "") :
    rebuild_go t idx0 seq =
      (t, t.toList.foldl (fun i p => i.put (p.2.code.getD "") p.1) idx0,
       seq, false) := by
  induction t generalizing idx0 seq with
  | leaf => rfl
  | node l k a r ihl ihr =>
    have hcl : ∀ p ∈ l.toList, ∃ c, p.2.code = some c ∧ c ≠ "" := by
      intro p hp
      exact hc p (by simp [Tree.toList, hp])
    have hcr : ∀ p ∈ r.toList, ∃ c, p.2.code = some c ∧ c ≠ "" := by
      intro p hp
      exact hc p (by simp [Tree.toList, hp])
    obtain ⟨c, hcode, hne⟩ := hc (k, a) (by simp [Tree.toList])
    have hcode2 : a.code = some c := hcode
    simp only [rebuild_go]
    rw [ihl idx0 seq hcl]
    simp only [hcode2, if_neg hne, Option.getD_some]
    rw [ihr _ seq hcr]
    simp only [Tree.toList, List.foldl_append, List.foldl_cons, hcode2,
      Option.getD_some, Bool.false_or]

theorem rebuild_establishes_inv (schedule : Tree Appointment) (seq : Int)
    (hord : schedule.Ordered)
    (hc : ∀ p ∈ schedule.toList, ∃ c, p.2.code = some c ∧ c ≠ "")
    (hnd : ((schedule.toList.map (fun p => p.2.code.getD ""))).Nodup) :
    (rebuild_code_index schedule seq).1 = schedule ∧
    (rebuild_code_index schedule seq).2.2.1 = seq ∧
    CodeIndexInv schedule (rebuild_code_index schedule seq).2.1 := by
  have hre := rebuild_go_all_coded schedule HashTable.empty seq hc
  unfold rebuild_code_index
  rw [hre]
  refine ⟨rfl, rfl, ?_, ?_⟩
  all_goals
    have hfold : schedule.toList.foldl
        (fun i p => i.put (p.2.code.getD "") p.1) HashTable.empty =
        (schedule.toList.map (fun p => (p.2.code.getD "", p.1))).foldl
          (fun acc q => acc.put q.1 q.2) HashTable.empty := by
      rw [List.foldl_map]
    have hkeysnd : ((schedule.toList.map
        (fun p => (p.2.code.getD "", p.1))).map Prod.fst).Nodup := by
      rw [List.map_map]
      exact hnd
    have hentries : ((schedule.toList.map
        (fun p => (p.2.code.getD "", p.1))).foldl
          (fun acc q => acc.put q.1 q.2) HashTable.empty).entries =
        schedule.toList.map (fun p => (p.2.code.getD "", p.1)) := by
      rw [foldl_put_pairs _ HashTable.empty (fun q _ => rfl) hkeysnd]
      rfl
  · intro k a hfind
    obtain ⟨c, hc1, hc2⟩ := hc (k, a)
      ((mem_toList_iff_find schedule hord k a).mpr hfind)
    refine ⟨c, hc1, ?_⟩
    show HashTable.get _ c = some k
    rw [hfold]
    show getEntries _ c = some k
    rw [hentries]
    rw [getEntries_eq_some_iff_mem _ c k hkeysnd]
    have hc1b : a.code = some c := hc1
    have : ((k, a).2.code.getD "", (k, a).1) = (c, k) := by
      simp [hc1b]
    rw [← this]
    exact List.mem_map_of_mem _ ((mem_toList_iff_find schedule hord k a).mpr hfind)
  · intro c k hg
    rw [hfold] at hg
    replace hg : getEntries _ c = some k := hg
    rw [hentries, getEntries_eq_some_iff_mem _ c k hkeysnd] at hg
    obtain ⟨p, hp, hpe⟩ := List.mem_map.mp hg
    obtain ⟨c2, hc21, hc22⟩ := hc p hp
    have hpc : p.2.code.getD "" = c := (Prod.mk.injEq _ _ _ _).mp hpe |>.1
    have hpk : p.1 = k := (Prod.mk.injEq _ _ _ _).mp hpe |>.2
    refine ⟨p.2, ?_, ?_⟩
    · rw [← hpk]
      exact (mem_toList_iff_find schedule hord p.1 p.2).mp (by simpa using hp)
    · rw [hc21]
      rw [hc21] at hpc
      simp only [Option.getD_some] at hpc
      rw [hpc]

theorem inv_scheduleOp (st : AppState) (pid : String) (m : Int) (p : Patient)
    (hinv : CodeIndexInv st.schedule st.code_index)
    (hreg : st.registry.get pid = some p)
    (hkey : st.schedule.find (m * 1000 + st.appt_seq) = none)
    (hcode : ∀ k a, st.schedule.find k = some a →
      a.code ≠ some (generate_appt_code st.appt_seq)) :
    CodeIndexInv (scheduleOp st pid m).1.schedule
      (scheduleOp st pid m).1.code_index := by
  have hsch : (scheduleOp st pid m).1.schedule =
      st.schedule.insert (m * 1000 + st.appt_seq)
        ⟨pid, m, some (generate_appt_code st.appt_seq)⟩ := by
    simp [scheduleOp, hreg]
  have hidx : (scheduleOp st pid m).1.code_index =
      st.code_index.put (generate_appt_code st.appt_seq)
        (m * 1000 + st.appt_seq) := by
    simp [scheduleOp, hreg]
  rw [hsch, hidx]
  constructor
  · intro k a hfind
    by_cases hk : k = m * 1000 + st.appt_seq
    · subst hk
      rw [Tree.find_insert_self st.schedule _ _ hkey] at hfind
      obtain rfl : (⟨pid, m, some (generate_appt_code st.appt_seq)⟩ :
          Appointment) = a := (Option.some.injEq _ _).mp hfind
      exact ⟨generate_appt_code st.appt_seq, rfl, HashTable.get_put_self _ _ _⟩
    · rw [Tree.find_insert_ne st.schedule _ k _ hk] at hfind
      obtain ⟨c, hc1, hc2⟩ := hinv.1 k a hfind
      refine ⟨c, hc1, ?_⟩
      have hcne : c ≠ generate_appt_code st.appt_seq := by
        intro he
        exact hcode k a hfind (by rw [hc1, he])
      rw [HashTable.get_put_ne _ _ _ _ hcne]
      exact hc2
  · intro c k hg
    by_cases hcc : c = generate_appt_code st.appt_seq
    · subst hcc
      rw [HashTable.get_put_self] at hg
      obtain rfl : m * 1000 + st.appt_seq = k := (Option.some.injEq _ _).mp hg
      exact ⟨⟨pid, m, some (generate_appt_code st.appt_seq)⟩,
        Tree.find_insert_self st.schedule _ _ hkey, rfl⟩
    · rw [HashTable.get_put_ne _ _ _ _ hcc] at hg
      obtain ⟨a, ha1, ha2⟩ := hinv.2 c k hg
      have hkne : k ≠ m * 1000 + st.appt_seq := by
        intro he
        rw [he, hkey] at ha1
        exact Option.noConfusion ha1
      exact ⟨a, by rw [Tree.find_insert_ne st.schedule _ k _ hkne]; exact ha1,
        ha2⟩

theorem inv_cancelOp (st : AppState) (code0 : String)
    (hord : st.schedule.Ordered) (hwf : st.code_index.Wf)
    (hinv : CodeIndexInv st.schedule st.code_index) :
    CodeIndexInv (cancelOp st code0).1.schedule
      (cancelOp st code0).1.code_index := by
  cases hidx : st.code_index.get code0 with
  | none =>
    have heq : (cancelOp st code0).1 = st := by
      simp [cancelOp, hidx]
    rw [heq]
    exact hinv
  | some key =>
    cases hfind : st.schedule.find key with
    | none =>
      exfalso
      obtain ⟨a, ha, _⟩ := hinv.2 code0 key hidx
      rw [hfind] at ha
      exact Option.noConfusion ha
    | some appt =>
      have hsch : (cancelOp st code0).1.schedule = st.schedule.delete key := by
        simp [cancelOp, hidx, hfind]
      have hix : (cancelOp st code0).1.code_index =
          st.code_index.remove code0 := by
        simp [cancelOp, hidx, hfind]
      rw [hsch, hix]
      have hacode : appt.code = some code0 := by
        obtain ⟨a, ha1, ha2⟩ := hinv.2 code0 key hidx
        rw [hfind] at ha1
        obtain rfl : appt = a := (Option.some.injEq _ _).mp ha1
        exact ha2
      constructor
      · intro k a hf
        have hkne : k ≠ key := by
          intro he
          subst he
          rw [Tree.find_delete_self st.schedule k hord] at hf
          exact Option.noConfusion hf
        rw [Tree.find_delete_ne st.schedule key k hord hkne] at hf
        obtain ⟨c, hc1, hc2⟩ := hinv.1 k a hf
        refine ⟨c, hc1, ?_⟩
        have hcne : c ≠ code0 := by
          intro he
          subst he
          rw [hidx] at hc2
          exact hkne ((Option.some.injEq _ _).mp hc2.symm)
        rw [HashTable.get_remove_ne _ _ _ hcne]
        exact hc2
      · intro c k hg
        have hcne : c ≠ code0 := by
          intro he
          subst he
          rw [HashTable.get_remove_self st.code_index c hwf] at hg
          exact Option.noConfusion hg
        rw [HashTable.get_remove_ne _ _ _ hcne] at hg
        obtain ⟨a, ha1, ha2⟩ := hinv.2 c k hg
        have hkne : k ≠ key := by
          intro he
          subst he
          rw [hfind] at ha1
          obtain rfl : appt = a := (Option.some.injEq _ _).mp ha1
          rw [hacode] at ha2
          exact hcne ((Option.some.injEq _ _).mp ha2).symm
        exact ⟨a,
          by rw [Tree.find_delete_ne st.schedule key k hord hkne]; exact ha1,
          ha2⟩

/-- C3 (amended): provided the appointments in the schedule carry nonempty,
pairwise-distinct codes — as they do when every code was produced by the
counter without wrap-around — `rebuild_code_index` leaves the schedule
unchanged and builds a code index in exact 1:1 correspondence with it
(every appointment's code maps back to its key and every index entry points
at an appointment carrying that code, so codes are unique across the active
schedule); the correspondence is preserved by the scheduling operation
whenever the freshly generated code and key are not already active, and by
the cancel operation unconditionally. -/
theorem code_index_one_to_one :
    (∀ (schedule : Tree Appointment) (seq : Int), schedule.Ordered →
      (∀ p ∈ schedule.toList, ∃ c, p.2.code = some c ∧ c ≠ "") →
      ((schedule.toList.map (fun p => p.2.code.getD "")).Nodup) →
      (rebuild_code_index schedule seq).1 = schedule ∧
      CodeIndexInv schedule (rebuild_code_index schedule seq).2.1 ∧
      (∀ k1 k2 a1 a2, schedule.find k1 = some a1 →
        schedule.find k2 = some a2 → a1.code = a2.code → k1 = k2)) ∧
    (∀ (st : AppState) (pid : String) (m : Int) (p : Patient),
      CodeIndexInv st.schedule st.code_index →
      st.registry.get pid = some p →
      st.schedule.find (m * 1000 + st.appt_seq) = none →
      (∀ k a, st.schedule.find k = some a →
        a.code ≠ some (generate_appt_code st.appt_seq)) →
      CodeIndexInv (scheduleOp st pid m).1.schedule
        (scheduleOp st pid m).1.code_index) ∧
    (∀ (st : AppState) (code0 : String),
      st.schedule.Ordered → st.code_index.Wf →
      CodeIndexInv st.schedule st.code_index →
      CodeIndexInv (cancelOp st code0).1.schedule
        (cancelOp st code0).1.code_index) := by
  refine ⟨?_, ?_, ?_⟩
  · intro schedule seq hord hc hnd
    obtain ⟨h1, _, h3⟩ := rebuild_establishes_inv schedule seq hord hc hnd
    exact ⟨h1, h3, fun k1 k2 a1 a2 hf1 hf2 hcc =>
      codes_unique_of_inv schedule _ h3 k1 k2 a1 a2 hf1 hf2 hcc⟩
  · intro st pid m p hinv hreg hkey hcode
    exact inv_scheduleOp st pid m p hinv hreg hkey hcode
  · intro st code0 hord hwf hinv
    exact inv_cancelOp st code0 hord hwf hinv

/-- Witness for the amended C3: the rebuild conjunct applied to a concrete
one-appointment schedule. -/
theorem code_index_one_to_one_witness :
    (rebuild_code_index (Tree.leaf.insert 5 ⟨"P1", 0, some "00000"⟩) 7).1 =
      Tree.leaf.insert 5 ⟨"P1", 0, some "00000"⟩ ∧
    CodeIndexInv (Tree.leaf.insert 5 ⟨"P1", 0, some "00000"⟩)
      (rebuild_code_index (Tree.leaf.insert 5 ⟨"P1", 0, some "00000"⟩) 7).2.1 :=
  ⟨(code_index_one_to_one.1 (Tree.leaf.insert 5 ⟨"P1", 0, some "00000"⟩) 7
      ⟨trivial, trivial, trivial, trivial⟩
      (fun p hp => by
        have hp2 : p = (5, (⟨"P1", 0, some "00000"⟩ : Appointment)) := by
          simpa [Tree.insert, Tree.toList] using hp
        rw [hp2]
        exact ⟨"00000", rfl, by decide⟩)
      (by decide)).1,
   (code_index_one_to_one.1 (Tree.leaf.insert 5 ⟨"P1", 0, some "00000"⟩) 7
      ⟨trivial, trivial, trivial, trivial⟩
      (fun p hp => by
        have hp2 : p = (5, (⟨"P1", 0, some "00000"⟩ : Appointment)) := by
          simpa [Tree.insert, Tree.toList] using hp
        rw [hp2]
        exact ⟨"00000", rfl, by decide⟩)
      (by decide)).2.1⟩

/-- A crafted but loadable `records.json` holding two active appointments
that share the code `"AAAAA"`. -/
def ce3File : SavedState :=
  ⟨[], [], [⟨1000, some "AAAAA", "P1", 1⟩, ⟨2000, some "AAAAA", "P2", 2⟩], 0⟩

/-- The schedule tree loaded from `ce3File`. -/
def ce3Schedule : Tree Appointment := (load_state (some ce3File) none).2.2.1

/-- Counterexample to C3 as stated: after startup from `ce3File` (load then
`rebuild_code_index`, exactly as `main()` begins), two active appointments
share the code `"AAAAA"` — so codes are not unique — and the code index
maps `"AAAAA"` only to key 2000, so the appointment at key 1000 has no
index entry pointing at its key: the code→key mapping is not 1:1. -/
theorem code_index_duplicate_counterexample :
    ce3Schedule.find 1000 = some ⟨"P1", 1, some "AAAAA"⟩ ∧
    ce3Schedule.find 2000 = some ⟨"P2", 2, some "AAAAA"⟩ ∧
    (rebuild_code_index ce3Schedule 0).1 = ce3Schedule ∧
    (rebuild_code_index ce3Schedule 0).2.1.get "AAAAA" = some 2000 ∧
    (rebuild_code_index ce3Schedule 0).2.1.entries.length = 1 ∧
    (1000 : Int) ≠ 2000 := by
  refine ⟨by decide, by decide, by decide, by decide, by decide, by decide⟩
